import Mathlib

set_option maxRecDepth 20000

namespace YuruHealth

/-! Shallow embedding of the raw-data ingestion and aggregation layer of the
yuru_health repository (src/database_manager.py and src/utils/sparkline.py).
Python dict payloads become an inductive JSON type, Python numbers become
rationals, stateful Supabase table access becomes explicit list passing, and
code that can raise becomes Except-valued. -/

/-- JSON-like values as stored in the raw data lake payload column.
Numbers are modelled as rationals; Python int and float collapse into one
numeric kind, since no claim distinguishes them or inspects float formatting. -/
inductive Json where
  | null : Json
  | bool (b : Bool) : Json
  | num (q : Rat) : Json
  | str (s : String) : Json
  | arr (xs : List Json) : Json
  | obj (fs : List (String × Json)) : Json

/-- The fixed volatile key set DatabaseManager._VOLATILE_KEYS. -/
def volatileKeys : List String :=
  ["dt", "t", "time", "timestamp", "ts", "server_time",
   "fetched_at", "recorded_at", "updated_at", "created_at", "cod"]

mutual

/-- DatabaseManager._strip_volatile: return a copy of the payload with the
volatile metadata keys recursively removed from every mapping. -/
def stripVolatile : Json → Json
  | .obj fs => .obj (stripObj fs)
  | .arr xs => .arr (stripArr xs)
  | j => j

def stripArr : List Json → List Json
  | [] => []
  | x :: xs => stripVolatile x :: stripArr xs

def stripObj : List (String × Json) → List (String × Json)
  | [] => []
  | (k, v) :: fs =>
      if k ∈ volatileKeys then stripObj fs
      else (k, stripVolatile v) :: stripObj fs

end

/-- Lexicographic code-point comparison of character lists; this is the
order in which Python sorts strings. -/
def charsLe : List Char → List Char → Bool
  | [], _ => true
  | _ :: _, [] => false
  | a :: as, b :: bs =>
      if a.toNat < b.toNat then true
      else if b.toNat < a.toNat then false
      else charsLe as bs

/-- String comparison by code points. -/
def strLe (a b : String) : Bool := charsLe a.data b.data

/-- Insert one key-value pair into a key-sorted association list. -/
def insertByKey (kv : String × Json) : List (String × Json) → List (String × Json)
  | [] => [kv]
  | x :: xs => if strLe kv.1 x.1 then kv :: x :: xs else x :: insertByKey kv xs

/-- Sort an association list by key (code-point order, as the Python
sorted builtin orders strings). -/
def sortByKey : List (String × Json) → List (String × Json)
  | [] => []
  | x :: xs => insertByKey x (sortByKey xs)

mutual

/-- Recursively sort every mapping of a JSON value by key.  Rendering the
result in order is exactly what json.dumps with sort_keys=True prints. -/
def sortDeep : Json → Json
  | .obj fs => .obj (sortByKey (sortDeepObj fs))
  | .arr xs => .arr (sortDeepArr xs)
  | j => j

def sortDeepArr : List Json → List Json
  | [] => []
  | x :: xs => sortDeep x :: sortDeepArr xs

def sortDeepObj : List (String × Json) → List (String × Json)
  | [] => []
  | (k, v) :: fs => (k, sortDeep v) :: sortDeepObj fs

end

/-- Lower-case hexadecimal digit characters. -/
def hexChars : List Char :=
  ['0', '1', '2', '3', '4', '5', '6', '7'] ++
    ['8', '9', 'a', 'b', 'c', 'd', 'e', 'f']

/-- Hexadecimal digit for a value modulo 16. -/
def hexDigitChar (n : Nat) : Char := hexChars.getD (n % 16) '0'

/-- JSON string escaping as json.dumps with ensure_ascii=False performs it:
quote, backslash and ASCII control characters are escaped, everything else
passes through unchanged. -/
def escapeChar (c : Char) : List Char :=
  if c = '"' then ['\\', '"']
  else if c = '\\' then ['\\', '\\']
  else if c = '\n' then ['\\', 'n']
  else if c = '\t' then ['\\', 't']
  else if c = '\r' then ['\\', 'r']
  else if c = Char.ofNat 8 then ['\\', 'b']
  else if c = Char.ofNat 12 then ['\\', 'f']
  else if c.toNat < 32 then
    ['\\', 'u', '0', '0', hexDigitChar (c.toNat / 16), hexDigitChar c.toNat]
  else [c]

/-- Render a string as a quoted JSON string literal. -/
def quoteString (s : String) : String :=
  String.mk ('"' :: (s.data.flatMap escapeChar ++ ['"']))

/-- Deterministic rendering of a JSON number.  Integral values print as the
Python int printer does; non-integral values use a fixed
mantissa/denominator form standing in for the Python float repr.  Every
claim needs only determinism of this rendering. -/
def renderNum (q : Rat) : String :=
  if q.den = 1 then toString q.num
  else toString q.num ++ "/" ++ toString q.den

mutual

/-- Render a JSON value with the default json.dumps separators. -/
def renderJson : Json → String
  | .null => "null"
  | .bool true => "true"
  | .bool false => "false"
  | .num q => renderNum q
  | .str s => quoteString s
  | .arr xs => "[" ++ renderArr xs ++ "]"
  | .obj fs => "\x7b" ++ renderObj fs ++ "\x7d"

def renderArr : List Json → String
  | [] => ""
  | [x] => renderJson x
  | x :: y :: xs => renderJson x ++ ", " ++ renderArr (y :: xs)

def renderObj : List (String × Json) → String
  | [] => ""
  | [(k, v)] => quoteString k ++ ": " ++ renderJson v
  | (k, v) :: f :: fs =>
      quoteString k ++ ": " ++ renderJson v ++ ", " ++ renderObj (f :: fs)

end

/-- json.dumps(stable, sort_keys=True, ensure_ascii=False, default=str):
the canonical serialization used by DatabaseManager._payload_hash. -/
def canonicalJson (j : Json) : String := renderJson (sortDeep j)

/-- UTF-8 encoding of one character as byte values. -/
def utf8Char (c : Char) : List Nat :=
  let n := c.toNat
  if n < 128 then [n]
  else if n < 2048 then [192 + n / 64, 128 + n % 64]
  else if n < 65536 then [224 + n / 4096, 128 + n / 64 % 64, 128 + n % 64]
  else [240 + n / 262144, 128 + n / 4096 % 64, 128 + n / 64 % 64, 128 + n % 64]

/-- UTF-8 encoding of a string as byte values. -/
def utf8Bytes (s : String) : List Nat := s.data.flatMap utf8Char

/-! SHA-256 over byte lists, as hashlib.sha256 computes it.  Words are
natural numbers reduced modulo 2 ^ 32. -/

/-- 2 ^ 32. -/
def w32 : Nat := 4294967296

/-- Addition modulo 2 ^ 32. -/
def add32 (a b : Nat) : Nat := (a + b) % w32

/-- Right rotation of a 32-bit word by n bits. -/
def rotr32 (x n : Nat) : Nat := x / 2 ^ n + x % 2 ^ n * 2 ^ (32 - n)

/-- Bitwise complement within 32 bits. -/
def not32 (x : Nat) : Nat := w32 - 1 - x

def shaSig0 (x : Nat) : Nat := rotr32 x 7 ^^^ rotr32 x 18 ^^^ x / 8

def shaSig1 (x : Nat) : Nat := rotr32 x 17 ^^^ rotr32 x 19 ^^^ x / 1024

def shaBig0 (x : Nat) : Nat := rotr32 x 2 ^^^ rotr32 x 13 ^^^ rotr32 x 22

def shaBig1 (x : Nat) : Nat := rotr32 x 6 ^^^ rotr32 x 11 ^^^ rotr32 x 25

def shaCh (e f g : Nat) : Nat := (e &&& f) ^^^ (not32 e &&& g)

def shaMaj (a b c : Nat) : Nat := (a &&& b) ^^^ (a &&& c) ^^^ (b &&& c)

/-- The 64 SHA-256 round constants. -/
def sha256K : List Nat :=
  [1116352408, 1899447441, 3049323471, 3921009573, 961987163, 1508970993,
   2453635748, 2870763221, 3624381080, 310598401, 607225278, 1426881987,
   1925078388, 2162078206, 2614888103, 3248222580, 3835390401, 4022224774,
   264347078, 604807628, 770255983, 1249150122, 1555081692, 1996064986,
   2554220882, 2821834349, 2952996808, 3210313671, 3336571891, 3584528711,
   113926993, 338241895, 666307205, 773529912, 1294757372, 1396182291,
   1695183700, 1986661051, 2177026350, 2456956037, 2730485921, 2820302411,
   3259730800, 3345764771, 3516065817, 3600352804, 4094571909, 275423344,
   430227734, 506948616, 659060556, 883997877, 958139571, 1322822218,
   1537002063, 1747873779, 1955562222, 2024104815, 2227730452, 2361852424,
   2428436474, 2756734187, 3204031479, 3329325298]

/-- Big-endian 8-byte rendering of the bit length. -/
def lenBytes (n : Nat) : List Nat :=
  [n / 2 ^ 56 % 256, n / 2 ^ 48 % 256, n / 2 ^ 40 % 256, n / 2 ^ 32 % 256,
   n / 2 ^ 24 % 256, n / 2 ^ 16 % 256, n / 2 ^ 8 % 256, n % 256]

/-- SHA-256 message padding. -/
def sha256Pad (msg : List Nat) : List Nat :=
  let z := (55 + 64 - msg.length % 64) % 64
  msg ++ 128 :: List.replicate z 0 ++ lenBytes (msg.length * 8)

/-- Group bytes into big-endian 32-bit words. -/
def toWords : List Nat → List Nat
  | b0 :: b1 :: b2 :: b3 :: rest =>
      (((b0 * 256 + b1) * 256 + b2) * 256 + b3) :: toWords rest
  | _ => []

/-- Group words into blocks of sixteen; the padded message always splits
evenly, so a short trailing remainder (impossible after padding) is dropped. -/
def toBlocks : List Nat → List (List Nat)
  | w0 :: w1 :: w2 :: w3 :: w4 :: w5 :: w6 :: w7 ::
    w8 :: w9 :: w10 :: w11 :: w12 :: w13 :: w14 :: w15 :: rest =>
      [w0, w1, w2, w3, w4, w5, w6, w7, w8, w9, w10, w11, w12, w13, w14, w15] ::
        toBlocks rest
  | _ => []

/-- Message-schedule extension; the accumulator holds the schedule in
reverse so that w(t-2), w(t-7), w(t-15) and w(t-16) are small lookups. -/
def extendSched : Nat → List Nat → List Nat
  | 0, acc => acc
  | n + 1, acc =>
      let nw := add32 (add32 (shaSig1 (acc.getD 1 0)) (acc.getD 6 0))
                      (add32 (shaSig0 (acc.getD 14 0)) (acc.getD 15 0))
      extendSched n (nw :: acc)

/-- The eight working variables of the compression function. -/
structure H8 where
  a : Nat
  b : Nat
  c : Nat
  d : Nat
  e : Nat
  f : Nat
  g : Nat
  h : Nat
deriving DecidableEq, Repr

/-- One SHA-256 round; kw is the round constant already added to the
schedule word. -/
def shaRound (st : H8) (kw : Nat) : H8 :=
  let t1 := add32 (add32 st.h (shaBig1 st.e)) (add32 (shaCh st.e st.f st.g) kw)
  let t2 := add32 (shaBig0 st.a) (shaMaj st.a st.b st.c)
  ⟨add32 t1 t2, st.a, st.b, st.c, add32 st.d t1, st.e, st.f, st.g⟩

/-- Compress one 16-word block into the running hash state. -/
def shaCompress (st : H8) (block : List Nat) : H8 :=
  let ws := (extendSched 48 block.reverse).reverse
  let kws := List.zipWith add32 sha256K ws
  let fin := kws.foldl shaRound st
  ⟨add32 st.a fin.a, add32 st.b fin.b, add32 st.c fin.c, add32 st.d fin.d,
   add32 st.e fin.e, add32 st.f fin.f, add32 st.g fin.g, add32 st.h fin.h⟩

/-- The SHA-256 initial hash value. -/
def sha256IV : H8 :=
  ⟨0x6a09e667, 0xbb67ae85, 0x3c6ef372, 0xa54ff53a,
   0x510e527f, 0x9b05688c, 0x1f83d9ab, 0x5be0cd19⟩

/-- Big-endian bytes of a 32-bit word. -/
def wordBytes (w : Nat) : List Nat :=
  [w / 2 ^ 24 % 256, w / 2 ^ 16 % 256, w / 2 ^ 8 % 256, w % 256]

/-- SHA-256 digest (32 bytes) of a byte list. -/
def sha256 (msg : List Nat) : List Nat :=
  let fin := (toBlocks (toWords (sha256Pad msg))).foldl shaCompress sha256IV
  [fin.a, fin.b, fin.c, fin.d, fin.e, fin.f, fin.g, fin.h].flatMap wordBytes

/-- Two hexadecimal digit characters of one byte. -/
def byteHex (b : Nat) : List Char := [hexDigitChar (b / 16), hexDigitChar b]

/-- Lower-case hexadecimal digest string of a byte list. -/
def sha256Hex (msg : List Nat) : String := String.mk ((sha256 msg).flatMap byteHex)

/-- DatabaseManager._payload_hash: SHA-256 hex digest of the canonical
serialization of the volatile-stripped payload. -/
def payloadHash (p : Json) : String :=
  sha256Hex (utf8Bytes (canonicalJson (stripVolatile p)))

/-! Datetime model.  Instants are epoch seconds (Int); civil fields follow
the standard Gregorian conversion the Python datetime module implements.
JST is the canonical timezone UTC+9. -/

/-- The JST offset in seconds. -/
def jstOff : Int := 32400

/-- Civil datetime fields, as carried by a Python datetime value. -/
structure CivilDT where
  year : Int
  month : Nat
  day : Nat
  hour : Nat
  minute : Nat
  second : Nat
  micro : Nat
deriving DecidableEq, Repr

/-- True in a leap year of the proleptic Gregorian calendar. -/
def isLeap (y : Int) : Bool :=
  Int.emod y 4 = 0 && (Int.emod y 100 ≠ 0 || Int.emod y 400 = 0)

/-- Month lengths of a year. -/
def monthLens (leap : Bool) : List Nat :=
  [31, if leap then 29 else 28, 31, 30, 31, 30, 31, 31, 30, 31, 30, 31]

/-- Walk the month lengths to turn a zero-based day of year into a
one-based month and day pair. -/
def monthWalk : Nat → List Nat → Nat → Nat × Nat
  | doy, ml :: rest, m => if doy < ml then (m, doy + 1) else monthWalk (doy - ml) rest (m + 1)
  | doy, [], m => (m, doy + 1)

/-- Gregorian date of a day count relative to 1970-01-01, following the
divmod cascade of the CPython _ord2ymd conversion. -/
def civilFromDays (z : Int) : Int × Nat × Nat :=
  let n0 := z + 719162
  let n400 := Int.ediv n0 146097
  let r := (Int.emod n0 146097).toNat
  let n100 := r / 36524
  let r1 := r % 36524
  let n4 := r1 / 1461
  let r2 := r1 % 1461
  let n1 := r2 / 365
  let r3 := r2 % 365
  let year := n400 * 400 + 1 + n100 * 100 + n4 * 4 + n1
  if n1 = 4 ∨ n100 = 4 then (year - 1, 12, 31)
  else
    let leap := decide (n1 = 3 ∧ (n4 ≠ 24 ∨ n100 = 3))
    let md := monthWalk r3 (monthLens leap) 1
    (year, md.1, md.2)

/-- Number of days before the first day of a year, counted from
0001-01-01, as the CPython _days_before_year helper computes it. -/
def daysBeforeYear (y : Int) : Int :=
  let p := y - 1
  p * 365 + Int.ediv p 4 - Int.ediv p 100 + Int.ediv p 400

/-- Number of days of a year before the first day of a month. -/
def daysBeforeMonth (leap : Bool) (m : Nat) : Nat :=
  ((monthLens leap).take (m - 1)).sum

/-- Day count relative to 1970-01-01 of a Gregorian date, as the CPython
_ymd2ord helper computes it (ordinal 719163 is 1970-01-01). -/
def daysFromCivil (y : Int) (m d : Nat) : Int :=
  daysBeforeYear y + (daysBeforeMonth (isLeap y) m : Int) + (d : Int) - 719163

/-- Civil datetime of an epoch instant shifted by a fixed offset, with a
given microsecond field. -/
def jdtOfEpochOff (sec off : Int) (micro : Nat) : CivilDT :=
  let t := sec + off
  let days := Int.ediv t 86400
  let sod := (Int.emod t 86400).toNat
  let ymd := civilFromDays days
  ⟨ymd.1, ymd.2.1, ymd.2.2, sod / 3600, sod / 60 % 60, sod % 60, micro⟩

/-- JST civil datetime of an epoch instant. -/
def jdtOfEpoch (sec : Int) (micro : Nat) : CivilDT := jdtOfEpochOff sec jstOff micro

/-- Epoch seconds of the civil fields read in UTC (microseconds excluded). -/
def secondsOfCivil (d : CivilDT) : Int :=
  daysFromCivil d.year d.month d.day * 86400 +
    (d.hour * 3600 + d.minute * 60 + d.second : Nat)

/-- Two-digit zero-padded decimal rendering. -/
def pad2 (n : Nat) : String := String.mk [hexDigitChar (n / 10 % 10), hexDigitChar (n % 10)]

/-- Four-digit zero-padded decimal rendering. -/
def pad4 (n : Nat) : String :=
  String.mk [hexDigitChar (n / 1000 % 10), hexDigitChar (n / 100 % 10),
             hexDigitChar (n / 10 % 10), hexDigitChar (n % 10)]

/-- Six-digit zero-padded decimal rendering. -/
def pad6 (n : Nat) : String :=
  String.mk [hexDigitChar (n / 100000 % 10), hexDigitChar (n / 10000 % 10),
             hexDigitChar (n / 1000 % 10), hexDigitChar (n / 100 % 10),
             hexDigitChar (n / 10 % 10), hexDigitChar (n % 10)]

/-- datetime.isoformat() of a JST-aware datetime: the microsecond part is
printed only when nonzero, and the fixed offset suffix is +09:00. -/
def jdtIso (d : CivilDT) : String :=
  pad4 d.year.toNat ++ "-" ++ pad2 d.month ++ "-" ++ pad2 d.day ++ "T" ++
    pad2 d.hour ++ ":" ++ pad2 d.minute ++ ":" ++ pad2 d.second ++
    (if d.micro = 0 then "" else "." ++ pad6 d.micro) ++ "+09:00"

/-- strftime %Y-%m-%d. -/
def dateStr (d : CivilDT) : String :=
  pad4 d.year.toNat ++ "-" ++ pad2 d.month ++ "-" ++ pad2 d.day

/-- Python round: nearest integer, ties to even. -/
def halfEvenRound (q : Rat) : Int :=
  let fl := q.floor
  let frac := q - (fl : Rat)
  if frac < 1 / 2 then fl
  else if 1 / 2 < frac then fl + 1
  else if fl % 2 = 0 then fl else fl + 1

/-- round(x, 1) on a rational value. -/
def round1 (q : Rat) : Rat := (halfEvenRound (q * 10) : Rat) / 10

/-- datetime.fromtimestamp(val, tz=JST) in CPython 3.11 on a 64-bit
platform: the fractional part becomes the microsecond field.  Error
outcomes differ and only some are caught by the caller:
an instant past the signed 64-bit time_t raises OverflowError (error
here); an instant whose UTC year leaves 1..9999 raises ValueError or
OSError, both caught by the caller (ok none here); a UTC-valid instant
whose JST year leaves the range overflows in the timezone adjustment and
raises OverflowError past the except handler (error here). -/
def fromtimestampJst (q : Rat) : Except Unit (Option CivilDT) :=
  let t0 := q.floor
  let us0 := halfEvenRound ((q - (t0 : Rat)) * 1000000)
  let tu := if us0 = 1000000 then (t0 + 1, 0) else (t0, us0.toNat)
  if 9223372036854775808 ≤ tu.1 ∨ tu.1 ≤ -9223372036854775809 then Except.error ()
  else
    let dUtc := jdtOfEpochOff tu.1 0 tu.2
    if dUtc.year < 1 ∨ 9999 < dUtc.year then Except.ok none
    else
      let d := jdtOfEpoch tu.1 tu.2
      if 1 ≤ d.year ∧ d.year ≤ 9999 then Except.ok (some d) else Except.error ()

/-- Decimal digit value of a character. -/
def digitVal (c : Char) : Option Nat :=
  if 48 ≤ c.toNat ∧ c.toNat ≤ 57 then some (c.toNat - 48) else none

/-- Parse exactly two decimal digit characters. -/
def parse2 : List Char → Option (Nat × List Char)
  | a :: b :: rest =>
      match digitVal a, digitVal b with
      | some x, some y => some (x * 10 + y, rest)
      | _, _ => none
  | _ => none

/-- Parse exactly four decimal digit characters. -/
def parse4 : List Char → Option (Nat × List Char)
  | a :: b :: c :: d :: rest =>
      match digitVal a, digitVal b, digitVal c, digitVal d with
      | some w, some x, some y, some z => some (((w * 10 + x) * 10 + y) * 10 + z, rest)
      | _, _, _, _ => none
  | _ => none

/-- Number of days of a month. -/
def daysInMonth (y : Int) (m : Nat) : Nat :=
  if m = 2 then (if isLeap y then 29 else 28)
  else if m = 4 ∨ m = 6 ∨ m = 9 ∨ m = 11 then 30
  else 31

/-- Parse one to six fractional digits into a microsecond count. -/
def parseFrac (cs : List Char) (acc : Nat) (seen : Nat) : Option (Nat × List Char) :=
  match cs with
  | c :: rest =>
      match digitVal c with
      | some v =>
          if seen < 6 then parseFrac rest (acc * 10 + v) (seen + 1)
          else none
      | none =>
          if 0 < seen then some (acc * 10 ^ (6 - seen), cs) else none
  | [] => if 0 < seen then some (acc * 10 ^ (6 - seen), []) else none

/-- Parse a trailing UTC-offset suffix sign HH:MM; an empty remainder means
a naive datetime. -/
def parseOffset : List Char → Option (Option Int)
  | [] => some none
  | sign :: rest =>
      if sign = '+' ∨ sign = '-' then
        match parse2 rest with
        | some (oh, r1) =>
            match r1 with
            | ':' :: r2 =>
                match parse2 r2 with
                | some (om, []) =>
                    if oh < 24 ∧ om < 60 then
                      let secs : Int := oh * 3600 + om * 60
                      some (some (if sign = '-' then -secs else secs))
                    else none
                | _ => none
            | _ => none
        | none => none
      else none

/-- Parse the time-of-day part after the separator: HH, HH:MM, HH:MM:SS,
optionally followed by a fraction and an offset. -/
def parseClock (cs : List Char) : Option (Nat × Nat × Nat × Nat × Option Int) := do
  let (hh, r1) ← parse2 cs
  match r1 with
  | ':' :: r2 => do
      let (mi, r3) ← parse2 r2
      match r3 with
      | ':' :: r4 => do
          let (ss, r5) ← parse2 r4
          match r5 with
          | '.' :: r6 => do
              let (us, r7) ← parseFrac r6 0 0
              let off ← parseOffset r7
              pure (hh, mi, ss, us, off)
          | _ => do
              let off ← parseOffset r5
              pure (hh, mi, ss, 0, off)
      | _ => do
          let off ← parseOffset r3
          pure (hh, mi, 0, 0, off)
  | _ => do
      let off ← parseOffset r1
      pure (hh, 0, 0, 0, off)

/-- datetime.fromisoformat, modelled on the extended format subset the
repository feeds it: YYYY-MM-DD, optionally a one-character separator and
HH[:MM[:SS[.ffffff]]], optionally a sign HH:MM offset.  Field ranges are
validated as Python does.  (Python additionally accepts basic formats
without separators and unpadded strptime fields; no caller produces them.) -/
def parseIsoChars (cs : List Char) : Option (CivilDT × Option Int) := do
  let (y, r1) ← parse4 cs
  match r1 with
  | '-' :: r2 => do
      let (m, r3) ← parse2 r2
      match r3 with
      | '-' :: r4 => do
          let (d, r5) ← parse2 r4
          if 1 ≤ y ∧ 1 ≤ m ∧ m ≤ 12 ∧ 1 ≤ d ∧ d ≤ daysInMonth y m then
            match r5 with
            | [] => pure (⟨y, m, d, 0, 0, 0, 0⟩, none)
            | _ :: r6 => do
                let (hh, mi, ss, us, off) ← parseClock r6
                if hh < 24 ∧ mi < 60 ∧ ss < 60 then
                  pure (⟨y, m, d, hh, mi, ss, us⟩, off)
                else none
          else none
      | _ => none
  | _ => none

/-- datetime.fromisoformat on a string. -/
def parseIso (s : String) : Option (CivilDT × Option Int) := parseIsoChars s.data

/-- str.replace("Z", "+00:00"). -/
def replaceZ (s : String) : String :=
  String.mk (s.data.flatMap (fun c => if c = 'Z' then "+00:00".data else [c]))

/-- datetime.astimezone(JST) of an aware datetime with the given offset in
seconds: shift the instant to UTC+9.  Python raises OverflowError (which no
caller catches) when the result leaves the year range 1..9999; that case is
none here. -/
def astimezoneJst (d : CivilDT) (curOff : Int) : Option CivilDT :=
  let d2 := jdtOfEpoch (secondsOfCivil d - curOff) d.micro
  if 1 ≤ d2.year ∧ d2.year ≤ 9999 then some d2 else none

/-- The _to_jst helper: parse an ISO string, treat a naive value as UTC,
and convert to JST.  none stands for the exception Python would raise. -/
def toJst (s : String) : Option CivilDT := do
  let (d, off) ← parseIso s
  astimezoneJst d (off.getD 0)

/-- The _to_jst_date helper: JST calendar date string of an ISO instant. -/
def toJstDate (s : String) : Option String := (toJst s).map dateStr

/-- The _to_jst_hour helper: JST hour of an ISO instant. -/
def toJstHour (s : String) : Option Nat := (toJst s).map (·.hour)

/-! DatabaseManager._extract_recorded_at. -/

/-- Python exception kinds the model distinguishes. -/
inductive PyErr where
  | typeError
  | valueError
  | attributeError
  | overflowError
deriving DecidableEq, Repr

/-- The ordered numeric-epoch candidate keys. -/
def epochKeys : List String := ["dt", "timestamp", "ts", "t", "time"]

/-- The ordered string-date candidate keys. -/
def isoKeys : List String := ["recorded_at", "date", "day"]

/-- dict.get on an object field list. -/
def pyGet (fs : List (String × Json)) (k : String) : Option Json :=
  (fs.find? (fun kv => kv.1 = k)).map (fun kv => kv.2)

/-- The numeric-epoch scan: the first candidate key whose value is numeric,
greater than 1e9 and convertible yields a JST datetime; a caught conversion
failure (OSError, ValueError) moves the scan to the next key, while an
uncaught OverflowError propagates. -/
def epochScan (fs : List (String × Json)) : List String → Except PyErr (Option CivilDT)
  | [] => Except.ok none
  | k :: ks =>
      match pyGet fs k with
      | some (.num q) =>
          if 1000000000 < q then
            match fromtimestampJst q with
            | Except.error _ => Except.error PyErr.overflowError
            | Except.ok (some d) => Except.ok (some d)
            | Except.ok none => epochScan fs ks
          else epochScan fs ks
      | _ => epochScan fs ks

/-- strptime(val, "%Y-%m-%d") on exactly ten characters, then
replace(tzinfo=JST): midnight JST of the given calendar date. -/
def parseYmdJst (cs : List Char) : Option CivilDT := do
  let (y, r1) ← parse4 cs
  match r1 with
  | '-' :: r2 => do
      let (m, r3) ← parse2 r2
      match r3 with
      | '-' :: r4 => do
          let (d, r5) ← parse2 r4
          if r5 = [] ∧ 1 ≤ y ∧ 1 ≤ m ∧ m ≤ 12 ∧ 1 ≤ d ∧ d ≤ daysInMonth y m then
            pure ⟨y, m, d, 0, 0, 0, 0⟩
          else none
      | _ => none
  | _ => none

/-- One string-date candidate: full ISO parse first (a naive result is
converted from the system-local offset, as astimezone does), falling back
to the bare date anchored at midnight JST.  A conversion that leaves the
datetime range raises OverflowError past the except ValueError handler. -/
def isoKeyTry (v : String) (localOff : Int) : Except PyErr (Option CivilDT) :=
  match parseIso (replaceZ v) with
  | some (d, off) =>
      match astimezoneJst d (off.getD localOff) with
      | some d2 => Except.ok (some d2)
      | none => Except.error PyErr.overflowError
  | none =>
      match parseYmdJst (v.data.take 10) with
      | some d => Except.ok (some d)
      | none => Except.ok none

/-- The string-date scan over the candidate keys. -/
def isoScan (fs : List (String × Json)) (localOff : Int) :
    List String → Except PyErr (Option CivilDT)
  | [] => Except.ok none
  | k :: ks =>
      match pyGet fs k with
      | some (.str v) =>
          if 10 ≤ v.data.length then
            match isoKeyTry v localOff with
            | Except.error e => Except.error e
            | Except.ok (some d) => Except.ok (some d)
            | Except.ok none => isoScan fs localOff ks
          else isoScan fs localOff ks
      | _ => isoScan fs localOff ks

/-- DatabaseManager._extract_recorded_at: derive recorded_at from payload
timestamp candidates, falling back to the supplied JST wall-clock instant.
localOff is the system-local UTC offset astimezone applies to naive
values. -/
def extractRecordedAt (p : Json) (fb : CivilDT) (localOff : Int) : Except PyErr String :=
  match p with
  | .obj fs =>
      match epochScan fs epochKeys with
      | Except.error e => Except.error e
      | Except.ok (some d) => Except.ok (jdtIso d)
      | Except.ok none =>
          match isoScan fs localOff isoKeys with
          | Except.error e => Except.error e
          | Except.ok (some d) => Except.ok (jdtIso d)
          | Except.ok none => Except.ok (jdtIso fb)
  | _ => Except.ok (jdtIso fb)

/-! Ingestion gate (DatabaseManager.save_raw_data).  The raw_data_lake
table becomes an explicit record list in insertion order; wall-clock
instants become a Nat clock of epoch seconds supplied by the caller.
Fetchers hand the gate already-parsed structures, so the string branch of
_parse_raw_data (a json.loads re-parse of string payloads) is outside the
model and payloads are structured Json values throughout. -/

/-- One stored row of raw_data_lake. -/
structure RawRecord where
  user_id : String
  source : String
  category : String
  fetched_at : Nat
  recorded_at : String
  payload : Json

/-- Row filter of the duplicate lookup. -/
def matchesKey (r : RawRecord) (u s c : String) : Bool :=
  r.user_id == u && r.source == s && r.category == c

/-- One step of the most-recent-record selection. -/
def latestStep (u s c : String) (acc : Option RawRecord) (r : RawRecord) :
    Option RawRecord :=
  if matchesKey r u s c then
    match acc with
    | none => some r
    | some b => if b.fetched_at ≤ r.fetched_at then some r else some b
  else acc

/-- The single most recent record of a (user_id, source, category) triple,
ordered by fetched_at descending with limit 1.  The table uniqueness
constraint on (user_id, fetched_at, source, category) rules out ties; the
fold lets a later equal-instant row win, which never fires. -/
def latestRecord (rows : List RawRecord) (u s c : String) : Option RawRecord :=
  rows.foldl (latestStep u s c) none

/-- Outcome of one gate call. -/
inductive SaveOutcome where
  | inserted
  | skipped
  | failed
deriving DecidableEq, Repr

/-- The body of the try block of save_raw_data: hash, lookup, compare,
insert.  The lookupFails and insertFails flags stand for storage-layer
exceptions thrown by the two Supabase round-trips. -/
def saveRawDataCore (rows : List RawRecord) (clock : Nat) (u s c : String)
    (p : Json) (localOff : Int) (lookupFails insertFails : Bool) :
    Except Unit (List RawRecord × SaveOutcome) :=
  let newHash := payloadHash p
  if lookupFails then Except.error ()
  else
    let doInsert : Except Unit (List RawRecord × SaveOutcome) :=
      match extractRecordedAt p (jdtOfEpoch clock 0) localOff with
      | Except.error _ => Except.error ()
      | Except.ok recAt =>
          if insertFails then Except.error ()
          else Except.ok (rows ++ [⟨u, s, c, clock, recAt, p⟩], SaveOutcome.inserted)
    match latestRecord rows u s c with
    | some r =>
        if payloadHash r.payload = newHash then Except.ok (rows, SaveOutcome.skipped)
        else doInsert
    | none => doInsert

/-- DatabaseManager.save_raw_data: the blanket except Exception handler
turns any failure into a logged soft failure that leaves the lake
untouched. -/
def saveRawData (rows : List RawRecord) (clock : Nat) (u s c : String)
    (p : Json) (localOff : Int) (lookupFails insertFails : Bool) :
    List RawRecord × SaveOutcome :=
  match saveRawDataCore rows clock u s c p localOff lookupFails insertFails with
  | Except.ok rc => rc
  | Except.error _ => (rows, SaveOutcome.failed)

/-- A gate call without storage failures, as the ingestion scenarios use
it. -/
def ingest (rows : List RawRecord) (clock : Nat) (u s c : String) (p : Json) :
    List RawRecord :=
  (saveRawData rows clock u s c p jstOff false false).1

/-- Number of stored records of one (user_id, source, category) triple. -/
def keyCount (rows : List RawRecord) (u s c : String) : Nat :=
  (rows.filter (fun r => matchesKey r u s c)).length

/-! Arrival aggregator (DatabaseManager.get_data_arrival_rich and its
badge builders).  Input rows arrive from the store ordered by fetched_at
descending; fetched_at is the stored ISO string. -/

/-- One row of the arrival query result. -/
structure LakeRow where
  source : String
  category : String
  fetched_at : String
  payload : Json

/-- dict assignment d[k] = v: update the first occurrence in place or
append. -/
def pyDictSet : List (String × Json) → String → Json → List (String × Json)
  | [], k, v => [(k, v)]
  | (k0, v0) :: fs, k, v =>
      if k0 = k then (k, v) :: fs else (k0, v0) :: pyDictSet fs k v

/-- dict lookup without default. -/
def pyLookup (fs : List (String × Json)) (k : String) : Option Json := pyGet fs k

/-- Substring test on character lists. -/
def charsContain (needle hay : List Char) : Bool :=
  hay.tails.any (fun t => needle.isPrefixOf t)

/-- The Python in operator applied to a JSON container: key membership for
mappings, element equality for lists, substring for strings; any other
right operand raises TypeError. -/
def pyContains (needle : String) (j : Json) : Except PyErr Bool :=
  match j with
  | .obj fs => Except.ok (fs.any (fun kv => kv.1 = needle))
  | .arr xs =>
      Except.ok (xs.any (fun x => match x with | .str s => s = needle | _ => false))
  | .str s => Except.ok (charsContain needle.data s.data)
  | _ => Except.error PyErr.typeError

/-- float(x) on a JSON value.  Numeric string parsing is not modelled: no
claim feeds a string where the repository expects a number, so a string
operand is reported as an error here. -/
def pyFloat : Json → Except PyErr Rat
  | .num q => Except.ok q
  | .bool b => Except.ok (if b then 1 else 0)
  | _ => Except.error PyErr.typeError

/-- int(x) on a JSON value, truncating toward zero.  Numeric string
parsing is not modelled, as for pyFloat. -/
def pyInt : Json → Except PyErr Int
  | .num q => Except.ok (if q < 0 then -((-q).floor) else q.floor)
  | .bool b => Except.ok (if b then 1 else 0)
  | _ => Except.error PyErr.typeError

/-- One iteration of the _build_oura_badge loop. -/
def ouraStep (badge : List (String × Json)) (row : LakeRow) :
    Except PyErr (List (String × Json)) :=
  match row.payload with
  | .obj fs =>
      let cat := row.category
      let b1 :=
        if cat = "sleep" ∧ (fs.any (fun kv => kv.1 = "score")) then
          pyDictSet badge "sleep_score" ((pyGet fs "score").getD .null)
        else if cat = "activity" ∧ (fs.any (fun kv => kv.1 = "score")) then
          pyDictSet badge "activity_score" ((pyGet fs "score").getD .null)
        else if cat = "readiness" ∧ (fs.any (fun kv => kv.1 = "score")) then
          pyDictSet badge "readiness_score" ((pyGet fs "score").getD .null)
        else badge
      let contrib :=
        if fs.any (fun kv => kv.1 = "contributors") then
          (pyContains "steps" ((pyGet fs "contributors").getD .null)).map (fun _ => ())
        else Except.ok ()
      match contrib with
      | Except.error e => Except.error e
      | Except.ok _ =>
          if fs.any (fun kv => kv.1 = "steps") then
            Except.ok (pyDictSet b1 "steps" ((pyGet fs "steps").getD .null))
          else Except.ok b1
  | _ => Except.ok badge

/-- DatabaseManager._build_oura_badge. -/
def buildOuraBadge (rows : List LakeRow) : Except PyErr (List (String × Json)) :=
  rows.foldlM ouraStep []

/-- Weights one row of _build_withings_badge contributes, in list order:
a plain weight field first, then every valid type-1 entry of the measures
array. -/
def withingsRowWeights (row : LakeRow) : Except PyErr (List Rat) :=
  match row.payload with
  | .obj fs => do
      let direct ←
        match pyGet fs "weight" with
        | none => pure []
        | some .null => pure []
        | some w => do
            let q ← pyFloat w
            pure [q]
      let measures ←
        match pyGet fs "measures" with
        | none => pure []
        | some (.arr ms) => pure ms
        | some _ => Except.error PyErr.typeError
      let fromMeasures ← measures.foldlM
        (fun (acc : List Rat) m =>
          match m with
          | .obj mfs => do
              let isType1 :=
                match pyGet mfs "type" with
                | some (.num q) => q == 1
                | _ => false
              if isType1 then do
                let v ← pyFloat ((pyGet mfs "value").getD (.num 0))
                let u ← pyInt ((pyGet mfs "unit").getD (.num 0))
                let val := v * (10 : Rat) ^ u
                if 0 < val then pure (acc ++ [round1 val]) else pure acc
              else pure acc
          | _ => Except.error PyErr.attributeError)
        []
      pure (direct ++ fromMeasures)
  | _ => Except.ok []

/-- DatabaseManager._build_withings_badge. -/
def buildWithingsBadge (rows : List LakeRow) : Except PyErr (List (String × Json)) := do
  let weights ← rows.foldlM (fun acc r => do
    let ws ← withingsRowWeights r
    pure (acc ++ ws)) []
  match weights.getLast? with
  | some w => pure [("weight_kg", Json.num (round1 w))]
  | none => pure []

/-- DatabaseManager._build_google_fit_badge. -/
def buildGoogleFitBadge (rows : List LakeRow) : Except PyErr (List (String × Json)) :=
  rows.foldlM
    (fun badge row =>
      match row.payload with
      | .obj fs => do
          let dtv ←
            match pyGet fs "data_type" with
            | some (.str s) => pure s
            | none => pure row.category
            | some _ => Except.error PyErr.attributeError
          let val := pyGet fs "value"
          let valSet := match val with | none => false | some .null => false | some _ => true
          let low := String.mk (dtv.data.map Char.toLower)
          if charsContain "step".data low.data && valSet then do
            let n ← pyInt ((val).getD .null)
            pure (pyDictSet badge "steps" (Json.num n))
          else if charsContain "weight".data low.data && valSet then do
            let q ← pyFloat ((val).getD .null)
            pure (pyDictSet badge "weight_kg" (Json.num (round1 q)))
          else if charsContain "sleep".data low.data && valSet then do
            let n ← pyInt ((val).getD .null)
            pure (pyDictSet badge "sleep_min" (Json.num n))
          else pure badge
      | _ => Except.ok badge)
    []

/-- One sample of the SwitchBot or Weather hourly series: raw payload
values keyed by the fixed field names, absent keys omitted. -/
structure TsPoint where
  hour : Nat
  temp : Option Json
  humidity : Option Json
  co2 : Option Json
  pressure : Option Json

/-- Field access of a sample by name, mirroring p.get(field). -/
def tsField (p : TsPoint) : String → Option Json
  | "temp" => p.temp
  | "humidity" => p.humidity
  | "co2" => p.co2
  | "pressure" => p.pressure
  | _ => none

/-- The fields the summary loop inspects. -/
def summaryFields : List String := ["temp", "humidity", "co2", "pressure"]

/-- The sample a _build_timeseries loop iteration produces. -/
def tsPointOf (source : String) (row : LakeRow) : Except PyErr TsPoint :=
  match toJstHour row.fetched_at with
  | none => Except.error PyErr.valueError
  | some hour =>
      match row.payload with
      | .obj fs =>
          if source = "switchbot" then
            Except.ok ⟨hour, pyGet fs "temperature", pyGet fs "humidity", pyGet fs "CO2", none⟩
          else
            match pyGet fs "main" with
            | none => Except.ok ⟨hour, none, none, none, none⟩
            | some (.obj ms) =>
                Except.ok ⟨hour, pyGet ms "temp", pyGet ms "humidity", none, pyGet ms "pressure"⟩
            | some _ => Except.error PyErr.attributeError
      | _ => Except.error PyErr.typeError

/-- Collect the non-null numeric values of one summary field; a present
non-numeric value poisons the sum and raises TypeError as in Python. -/
def numericVals (pts : List TsPoint) (field : String) : Except PyErr (List Rat) :=
  pts.foldlM
    (fun acc p =>
      match tsField p field with
      | none => pure acc
      | some .null => pure acc
      | some (.num q) => pure (acc ++ [q])
      | some _ => Except.error PyErr.typeError)
    []

/-- Minimum of a nonempty rational list (first element on ties). -/
def ratMin (q : Rat) (qs : List Rat) : Rat := qs.foldl (fun a b => if b < a then b else a) q

/-- Maximum of a nonempty rational list (first element on ties). -/
def ratMax (q : Rat) (qs : List Rat) : Rat := qs.foldl (fun a b => if a < b then b else a) q

/-- DatabaseManager._build_timeseries: hourly samples plus per-field
avg/min/max summary statistics rounded to one decimal. -/
def buildTimeseries (source : String) (rows : List LakeRow) :
    Except PyErr (List TsPoint × List (String × Rat)) := do
  let pts ← rows.foldlM
    (fun acc row =>
      match row.payload with
      | .obj _ => do
          let p ← tsPointOf source row
          pure (acc ++ [p])
      | _ => pure acc)
    []
  let summary ← summaryFields.foldlM
    (fun (acc : List (String × Rat)) field => do
      let vals ← numericVals pts field
      match vals with
      | [] => pure acc
      | v :: vs =>
          pure (acc ++
            [(field ++ "_avg", round1 ((v :: vs).foldl (· + ·) 0 / (v :: vs).length)),
             (field ++ "_min", round1 (ratMin v vs)),
             (field ++ "_max", round1 (ratMax v vs))])
    )
    []
  pure (pts, summary)

/-- The derived per-bucket cell of the arrival aggregator. -/
structure ArrivalEntry where
  has_data : Bool
  badge : Option (List (String × Json))
  timeseries : Option (List TsPoint)
  summary : Option (List (String × Rat))

/-- Append a row to its (source, JST date) bucket, keeping first-seen
bucket order as a Python dict does. -/
def addToBucket (bs : List ((String × String) × List LakeRow))
    (key : String × String) (r : LakeRow) : List ((String × String) × List LakeRow) :=
  if bs.any (fun b => b.1 = key) then
    bs.map (fun b => if b.1 = key then (b.1, b.2 ++ [r]) else b)
  else bs ++ [(key, [r])]

/-- The source×date bucketing loop of get_data_arrival_rich; fetched_at is
converted to a JST date first. -/
def buildBuckets (rows : List LakeRow) :
    Except PyErr (List ((String × String) × List LakeRow)) :=
  rows.foldlM
    (fun bs r =>
      match toJstDate r.fetched_at with
      | none => Except.error PyErr.valueError
      | some d => Except.ok (addToBucket bs (r.source, d) r))
    []

/-- The per-bucket dispatch of get_data_arrival_rich. -/
def bucketEntry (source : String) (rows : List LakeRow) : Except PyErr ArrivalEntry :=
  if source = "switchbot" ∨ source = "weather" then do
    let ts ← buildTimeseries source rows
    pure ⟨true, none, some ts.1, some ts.2⟩
  else if source = "oura" then do
    let b ← buildOuraBadge rows
    pure ⟨true, some b, none, none⟩
  else if source = "withings" then do
    let b ← buildWithingsBadge rows
    pure ⟨true, some b, none, none⟩
  else if source = "google_fit" then do
    let b ← buildGoogleFitBadge rows
    pure ⟨true, some b, none, none⟩
  else pure ⟨true, none, none, none⟩

/-- The result-assembly loop of get_data_arrival_rich, bucket by bucket
in first-seen order. -/
def mapBuckets : List ((String × String) × List LakeRow) →
    Except PyErr (List ((String × String) × ArrivalEntry))
  | [] => Except.ok []
  | b :: rest =>
      match bucketEntry b.1.1 b.2 with
      | Except.error e => Except.error e
      | Except.ok entry =>
          match mapBuckets rest with
          | Except.error e => Except.error e
          | Except.ok tailE => Except.ok ((b.1, entry) :: tailE)

/-- DatabaseManager.get_data_arrival_rich on the window query result
(rows ordered by fetched_at descending, as the store returns them). -/
def getDataArrivalRich (rows : List LakeRow) :
    Except PyErr (List ((String × String) × ArrivalEntry)) :=
  match buildBuckets rows with
  | Except.error e => Except.error e
  | Except.ok buckets => mapBuckets buckets

/-! Footprint grid (build_footprint_html in src/utils/sparkline.py).  The
claims concern which cells the grid covers, so the model keeps, for every
cell, its source row, date column and filled flag, and leaves the HTML
text aside. -/

/-- The fixed source rows of the footprint table, in render order. -/
def footprintSources : List String := ["oura", "withings", "google_fit", "weather", "switchbot"]

/-- The trailing date range date.today() - (days-1) .. today, oldest
first, as day counts relative to 1970-01-01. -/
def dateRangeFor (today : Int) (days : Nat) : List Int :=
  (List.range days).map (fun i => today - ((days - 1 - i : Nat) : Int))

/-- strftime %Y-%m-%d of a day count. -/
def dayNumStr (z : Int) : String :=
  let c := civilFromDays z
  pad4 c.1.toNat ++ "-" ++ pad2 c.2.1 ++ "-" ++ pad2 c.2.2

/-- One rendered cell of the footprint table. -/
structure FootCell where
  source : String
  date : String
  filled : Bool
deriving DecidableEq, Repr

/-- The cell grid build_footprint_html renders: one cell per known source
per trailing date, filled when the rich history has a has_data entry
under that (source, date) key. -/
def buildFootprintCells (rich : List ((String × String) × ArrivalEntry))
    (days : Nat) (today : Int) : List FootCell :=
  footprintSources.flatMap (fun src =>
    (dateRangeFor today days).map (fun d =>
      let ds := dayNumStr d
      { source := src, date := ds,
        filled :=
          match rich.find? (fun b => b.1 = (src, ds)) with
          | some b => b.2.has_data
          | none => false }))

/-! Correlation assembler (DatabaseManager.get_correlation_data).  The two
store queries become two explicit row lists, both ordered by fetched_at
ascending as queried. -/

/-- One row of the Oura sleep query (payload and recorded_at columns). -/
structure OuraSleepRow where
  payload : Json
  recorded_at : String

/-- One row of the SwitchBot environment query (payload and fetched_at
columns). -/
structure EnvRow where
  payload : Json
  fetched_at : String

/-- One output row of the correlation join. -/
structure CorrRow where
  date : String
  sleep_score : Int
  co2_avg : Option Rat
  temp_avg : Option Rat
  humidity_avg : Option Rat
deriving DecidableEq, Repr

/-- Python truthiness of a JSON value. -/
def jsonTruthy : Json → Bool
  | .null => false
  | .bool b => b
  | .num q => q ≠ 0
  | .str s => s ≠ ""
  | .arr xs => !xs.isEmpty
  | .obj fs => !fs.isEmpty

/-- The sleep-row extraction loop: skip non-mapping payloads and missing
scores, resolve the date from payload.day falling back to the first ten
characters of recorded_at, skip short dates, keep (date, int(score)).
A truthy non-string day raises when its length is taken or when pandas
hashes it, so it is an error here. -/
def extractSleepRows (rows : List OuraSleepRow) : Except PyErr (List (String × Int)) :=
  rows.foldlM
    (fun acc row =>
      match row.payload with
      | .obj fs =>
          match pyGet fs "score" with
          | none => pure acc
          | some .null => pure acc
          | some score => do
              let day := (pyGet fs "day").getD .null
              let dateStr0 ←
                if jsonTruthy day then
                  match day with
                  | .str s => pure s
                  | _ => Except.error PyErr.typeError
                else pure (String.mk (row.recorded_at.data.take 10))
              if dateStr0.data.length < 10 then pure acc
              else do
                let n ← pyInt score
                pure (acc ++ [(String.mk (dateStr0.data.take 10), n)])
      | _ => pure acc)
    []

/-- drop_duplicates(subset="date", keep="last"): keep the last occurrence
of every date, in the order of the kept rows. -/
def dedupKeepLast (rows : List (String × Int)) : List (String × Int) :=
  rows.foldr
    (fun r acc => if acc.any (fun x => x.1 = r.1) then acc else r :: acc)
    []

/-- One extracted environment row. -/
structure EnvExtract where
  date : String
  co2 : Option Json
  temp : Option Json
  humidity : Option Json

/-- The environment-row extraction loop of get_correlation_data. -/
def extractEnvRows (rows : List EnvRow) : Except PyErr (List EnvExtract) :=
  rows.foldlM
    (fun acc row =>
      match row.payload with
      | .obj fs =>
          match toJstDate row.fetched_at with
          | none => Except.error PyErr.valueError
          | some d =>
              if d.data.length < 10 then pure acc
              else pure (acc ++
                [⟨d, pyGet fs "CO2", pyGet fs "temperature", pyGet fs "humidity"⟩])
      | _ => pure acc)
    []

/-- Mean of the present numeric values of one column restricted to one
date: None and missing entries are NaN and skipped; a present non-numeric
value makes the column object-typed and the aggregation raise. -/
def colMean (vals : List (Option Json)) : Except PyErr (Option Rat) := do
  let nums ← vals.foldlM
    (fun (acc : List Rat) v =>
      match v with
      | none => pure acc
      | some .null => pure acc
      | some (.num q) => pure (acc ++ [q])
      | some _ => Except.error PyErr.typeError)
    []
  match nums with
  | [] => pure none
  | n :: ns => pure (some (round1 ((n :: ns).foldl (· + ·) 0 / (n :: ns).length)))

/-- Per-date aggregated averages. -/
structure EnvAgg where
  date : String
  co2_avg : Option Rat
  temp_avg : Option Rat
  humidity_avg : Option Rat

/-- First-seen deduplication of date keys. -/
def uniqueDates (rows : List EnvExtract) : List String :=
  rows.foldl (fun acc r => if acc.any (fun d => d = r.date) then acc else acc ++ [r.date]) []

/-- Insert a string into an ascending list. -/
def insertStr (s : String) : List String → List String
  | [] => [s]
  | x :: xs => if strLe s x then s :: x :: xs else x :: insertStr s xs

/-- Ascending insertion sort of strings; pandas groupby sorts its group
keys. -/
def sortStrings : List String → List String
  | [] => []
  | x :: xs => insertStr x (sortStrings xs)

/-- The per-date aggregation of one list of group keys. -/
def mapAgg (rows : List EnvExtract) : List String → Except PyErr (List EnvAgg)
  | [] => pure []
  | d :: ds => do
      let sel := rows.filter (fun r => r.date = d)
      let c ← colMean (sel.map (fun r => r.co2))
      let t ← colMean (sel.map (fun r => r.temp))
      let hu ← colMean (sel.map (fun r => r.humidity))
      let rest ← mapAgg rows ds
      pure (⟨d, c, t, hu⟩ :: rest)

/-- groupby("date").agg(mean).round(1): one aggregate row per distinct
date in ascending date order. -/
def groupMeans (rows : List EnvExtract) : Except PyErr (List EnvAgg) :=
  mapAgg rows (sortStrings (uniqueDates rows))

/-- Insert a correlation row into a date-ascending list. -/
def insertCorr (r : CorrRow) : List CorrRow → List CorrRow
  | [] => [r]
  | x :: xs => if strLe r.date x.date then r :: x :: xs else x :: insertCorr r xs

/-- sort_values("date"): ascending insertion sort; the dates are distinct
after deduplication, so any sorting algorithm returns this order. -/
def sortCorr : List CorrRow → List CorrRow
  | [] => []
  | x :: xs => insertCorr x (sortCorr xs)

/-- DatabaseManager.get_correlation_data on the two query results. -/
def getCorrelationData (sleepIn : List OuraSleepRow) (envIn : List EnvRow) :
    Except PyErr (List CorrRow) := do
  let sleepRows ← extractSleepRows sleepIn
  if sleepRows = [] then pure []
  else do
    let dedup := dedupKeepLast sleepRows
    let envRows ← extractEnvRows envIn
    if envRows.isEmpty then
      pure (sortCorr (dedup.map (fun sr => ⟨sr.1, sr.2, none, none, none⟩)))
    else do
      let agg ← groupMeans envRows
      pure (sortCorr (dedup.map (fun sr =>
        match agg.find? (fun a => a.date = sr.1) with
        | some a => ⟨sr.1, sr.2, a.co2_avg, a.temp_avg, a.humidity_avg⟩
        | none => ⟨sr.1, sr.2, none, none, none⟩)))

/-! Volatile edits: the payload rewrites the fingerprint-stability claim
quantifies over.  One step adds, overwrites or removes a volatile key in
one mapping, reachable through any chain of object fields and array
elements; chains of steps are taken with the reflexive transitive
closure. -/

/-- One volatile-key edit somewhere inside a JSON value. -/
inductive VolatileEdit : Json → Json → Prop where
  | setKey (fs : List (String × Json)) (k : String) (v : Json)
      (h : k ∈ volatileKeys) :
      VolatileEdit (.obj fs) (.obj (pyDictSet fs k v))
  | delKey (fs : List (String × Json)) (k : String) (h : k ∈ volatileKeys) :
      VolatileEdit (.obj fs) (.obj (fs.filter (fun kv => kv.1 ≠ k)))
  | atField (pre post : List (String × Json)) (k : String) (a b : Json) :
      VolatileEdit a b →
      VolatileEdit (.obj (pre ++ (k, a) :: post)) (.obj (pre ++ (k, b) :: post))
  | atElem (pre post : List Json) (a b : Json) :
      VolatileEdit a b →
      VolatileEdit (.arr (pre ++ a :: post)) (.arr (pre ++ b :: post))

/-! Comparison functions for the timestamp-normalizer claim.  The
candidate-value views restate the scans over the values the ordered key
lists select, and the claim-literal extractor follows the claim text,
converting the first large numeric value with the unbounded calendar
conversion the claim implies. -/

/-- The values of the numeric-epoch candidate keys that are numeric and
greater than 1e9, in key order. -/
def numCandidates (fs : List (String × Json)) : List Rat :=
  epochKeys.filterMap (fun k =>
    match pyGet fs k with
    | some (.num q) => if 1000000000 < q then some q else none
    | _ => none)

/-- The values of the string-date candidate keys that are strings of
length at least ten, in key order. -/
def strCandidates (fs : List (String × Json)) : List String :=
  isoKeys.filterMap (fun k =>
    match pyGet fs k with
    | some (.str v) => if 10 ≤ v.data.length then some v else none
    | _ => none)

/-- The numeric scan expressed over the candidate values alone. -/
def scanVals : List Rat → Except PyErr (Option CivilDT)
  | [] => Except.ok none
  | q :: qs =>
      match fromtimestampJst q with
      | Except.error _ => Except.error PyErr.overflowError
      | Except.ok (some d) => Except.ok (some d)
      | Except.ok none => scanVals qs

/-- The string scan expressed over the candidate values alone. -/
def scanStrs (localOff : Int) : List String → Except PyErr (Option CivilDT)
  | [] => Except.ok none
  | v :: vs =>
      match isoKeyTry v localOff with
      | Except.error e => Except.error e
      | Except.ok (some d) => Except.ok (some d)
      | Except.ok none => scanStrs localOff vs

/-- The unbounded conversion to JST civil fields the claim text implies
when it says the first large numeric value is converted to the canonical
timezone. -/
def fromtimestampTotal (q : Rat) : CivilDT :=
  let t0 := q.floor
  let us0 := halfEvenRound ((q - (t0 : Rat)) * 1000000)
  let tu := if us0 = 1000000 then (t0 + 1, 0) else (t0, us0.toNat)
  jdtOfEpoch tu.1 tu.2

/-- Modelled from the claim text of the timestamp normalizer, for
comparison with the source behavior: take the first numeric candidate
greater than 1e9 and convert it, otherwise the first parseable string
candidate, otherwise the fallback. -/
def claimedExtract (p : Json) (fb : CivilDT) (localOff : Int) : String :=
  match p with
  | .obj fs =>
      match (numCandidates fs).head? with
      | some q => jdtIso (fromtimestampTotal q)
      | none =>
          match scanStrs localOff (strCandidates fs) with
          | Except.ok (some d) => jdtIso d
          | _ => jdtIso fb
  | _ => jdtIso fb

/-- Civil fields a Python datetime can carry. -/
def validJdt (d : CivilDT) : Prop :=
  1 ≤ d.year ∧ d.year ≤ 9999 ∧ 1 ≤ d.month ∧ d.month ≤ 12 ∧
    1 ≤ d.day ∧ d.day ≤ 31 ∧ d.hour < 24 ∧ d.minute < 60 ∧ d.second < 60 ∧
    d.micro < 1000000

/-! Statement helpers for the arrival tie-break claim. -/

/-- The value one oura row writes into one badge field, when it writes
one. -/
def ouraSetter (field : String) (r : LakeRow) : Option Json :=
  match r.payload with
  | .obj fs =>
      let hasScore := fs.any (fun kv => kv.1 = "score")
      if field = "sleep_score" then
        if r.category = "sleep" ∧ hasScore then pyGet fs "score" else none
      else if field = "activity_score" then
        if r.category = "activity" ∧ hasScore then pyGet fs "score" else none
      else if field = "readiness_score" then
        if r.category = "readiness" ∧ hasScore then pyGet fs "score" else none
      else if field = "steps" then
        if fs.any (fun kv => kv.1 = "steps") then pyGet fs "steps" else none
      else none
  | _ => none

/-- The instant of a stored ISO timestamp, for chronological comparison;
unparseable strings order at the epoch. -/
def instantOf (s : String) : Int :=
  match parseIso s with
  | some (d, off) => secondsOfCivil d - off.getD 0
  | none => 0

/-- Rows in the order the arrival query returns them: fetched_at
descending. -/
def FetchedDesc (rows : List LakeRow) : Prop :=
  List.Pairwise (fun a b => instantOf b.fetched_at ≤ instantOf a.fetched_at) rows

/-- The weights one row contributes, defaulting the error case away for
statements that already assume a successful run. -/
def rowWeightsD (r : LakeRow) : List Rat :=
  match withingsRowWeights r with
  | Except.ok ws => ws
  | Except.error _ => []

/-- True on a successful Except value. -/
def pyOk {α : Type} (x : Except PyErr α) : Bool :=
  match x with
  | Except.ok _ => true
  | Except.error _ => false

/-- The timestamp normalizer succeeds on a payload whatever the fallback
instant is; failure depends only on the payload scans. -/
def extractOk (p : Json) (off : Int) : Prop :=
  ∀ fb, pyOk (extractRecordedAt p fb off) = true

/-! Theorems.  Shared helper lemmas come first, then one theorem per
claim, each with its witness where the statement carries hypotheses. -/

mutual

theorem stripVolatile_idem : (j : Json) → stripVolatile (stripVolatile j) = stripVolatile j
  | .null => rfl
  | .bool _ => rfl
  | .num _ => rfl
  | .str _ => rfl
  | .arr xs => by simp only [stripVolatile, stripArr_idem xs]
  | .obj fs => by simp only [stripVolatile, stripObj_idem fs]

theorem stripArr_idem : (xs : List Json) → stripArr (stripArr xs) = stripArr xs
  | [] => rfl
  | x :: xs => by simp only [stripArr, stripVolatile_idem x, stripArr_idem xs]

theorem stripObj_idem : (fs : List (String × Json)) → stripObj (stripObj fs) = stripObj fs
  | [] => rfl
  | (k, v) :: fs => by
      by_cases h : k ∈ volatileKeys
      · simp only [stripObj, if_pos h, stripObj_idem fs]
      · simp only [stripObj, if_neg h, stripVolatile_idem v, stripObj_idem fs]

end

/-- C10: volatile-key stripping is idempotent, and fingerprinting a
stripped payload gives the fingerprint of the payload itself. -/
theorem strip_idempotent_fingerprint_stable :
    (∀ v, stripVolatile (stripVolatile v) = stripVolatile v) ∧
    (∀ p, payloadHash (stripVolatile p) = payloadHash p) :=
  ⟨stripVolatile_idem, fun p => by unfold payloadHash; rw [stripVolatile_idem]⟩

theorem stripObj_set_volatile (fs : List (String × Json)) (k : String) (v : Json)
    (h : k ∈ volatileKeys) : stripObj (pyDictSet fs k v) = stripObj fs := by
  induction fs with
  | nil => simp [pyDictSet, stripObj, h]
  | cons kv rest ih =>
      obtain ⟨k0, v0⟩ := kv
      by_cases hk : k0 = k
      · subst hk
        simp [pyDictSet, stripObj, h]
      · by_cases hv : k0 ∈ volatileKeys
        · simp [pyDictSet, hk, stripObj, hv, ih]
        · simp [pyDictSet, hk, stripObj, hv, ih]

theorem stripObj_del_volatile (fs : List (String × Json)) (k : String)
    (h : k ∈ volatileKeys) :
    stripObj (fs.filter (fun kv => kv.1 ≠ k)) = stripObj fs := by
  induction fs with
  | nil => simp
  | cons kv rest ih =>
      obtain ⟨k0, v0⟩ := kv
      simp only [ne_eq, decide_not] at ih ⊢
      by_cases hk : k0 = k
      · subst hk
        simp [List.filter, stripObj, h, ih]
      · by_cases hv : k0 ∈ volatileKeys
        · simp [List.filter, hk, stripObj, hv, ih]
        · simp [List.filter, hk, stripObj, hv, ih]

theorem stripObj_append (l1 l2 : List (String × Json)) :
    stripObj (l1 ++ l2) = stripObj l1 ++ stripObj l2 := by
  induction l1 with
  | nil => simp [stripObj]
  | cons kv rest ih =>
      obtain ⟨k0, v0⟩ := kv
      by_cases hv : k0 ∈ volatileKeys
      · simp [stripObj, hv, ih]
      · simp [stripObj, hv, ih]

theorem stripArr_append (l1 l2 : List Json) :
    stripArr (l1 ++ l2) = stripArr l1 ++ stripArr l2 := by
  induction l1 with
  | nil => simp [stripArr]
  | cons x rest ih => simp [stripArr, ih]

theorem strip_volatileEdit {p q : Json} (h : VolatileEdit p q) :
    stripVolatile p = stripVolatile q := by
  induction h with
  | setKey fs k v hk => simp [stripVolatile, stripObj_set_volatile fs k v hk]
  | delKey fs k hk =>
      have := stripObj_del_volatile fs k hk
      simp only [ne_eq, decide_not] at this
      simp [stripVolatile, this]
  | atField pre post k a b _ ih =>
      by_cases hv : k ∈ volatileKeys
      · simp [stripVolatile, stripObj_append, stripObj, hv]
      · simp [stripVolatile, stripObj_append, stripObj, hv, ih]
  | atElem pre post a b _ ih =>
      simp [stripVolatile, stripArr_append, stripArr, ih]

theorem payloadHash_strip_congr {p q : Json}
    (h : stripVolatile p = stripVolatile q) : payloadHash p = payloadHash q := by
  unfold payloadHash
  rw [h]

theorem hexDigitChar_mem (n : Nat) : hexDigitChar n ∈ hexChars := by
  unfold hexDigitChar
  have h : n % 16 < hexChars.length := by
    have := Nat.mod_lt n (y := 16) (by omega)
    simpa [hexChars] using this
  rw [List.getD_eq_getElem hexChars _ h]
  exact List.getElem_mem h

theorem byteHex_length (l : List Nat) : (l.flatMap byteHex).length = 2 * l.length := by
  induction l with
  | nil => simp
  | cons b rest ih => simp [byteHex, ih]; omega

theorem sha256_length (msg : List Nat) : (sha256 msg).length = 32 := by
  unfold sha256 wordBytes
  simp

theorem payloadHash_length (p : Json) : (payloadHash p).length = 64 := by
  show ((sha256 (utf8Bytes (canonicalJson (stripVolatile p)))).flatMap byteHex).length = 64
  rw [byteHex_length, sha256_length]

theorem payloadHash_hex (p : Json) (c : Char) (hc : c ∈ (payloadHash p).data) :
    c ∈ hexChars := by
  have hc2 : c ∈ (sha256 (utf8Bytes (canonicalJson (stripVolatile p)))).flatMap byteHex := hc
  obtain ⟨b, _, hm⟩ := List.mem_flatMap.mp hc2
  simp only [byteHex, List.mem_cons, List.not_mem_nil, or_false] at hm
  rcases hm with h | h <;> (subst h; exact hexDigitChar_mem _)

/-- C2: the fingerprint is unchanged under any chain of volatile-key
additions, overwrites and removals in mappings at any nesting depth,
including mappings inside lists; it is the fixed-length lower-case
hexadecimal SHA-256 digest of the volatile-stripped structure serialized
with sorted keys. -/
theorem fingerprint_stability :
    (∀ p q, Relation.ReflTransGen VolatileEdit p q → payloadHash p = payloadHash q) ∧
    (∀ p, (payloadHash p).length = 64) ∧
    (∀ p, ∀ c ∈ (payloadHash p).data, c ∈ hexChars) ∧
    (∀ p, payloadHash p = sha256Hex (utf8Bytes (canonicalJson (stripVolatile p)))) := by
  refine ⟨fun p q h => ?_, payloadHash_length, payloadHash_hex, fun _ => rfl⟩
  induction h with
  | refl => rfl
  | tail _ step ih => exact ih.trans (payloadHash_strip_congr (strip_volatileEdit step))

/-- Witness for C2: one volatile key inserted two levels deep, inside a
mapping inside a list, leaves the fingerprint unchanged, and the digest
has 64 characters. -/
theorem fingerprint_stability_witness :
    payloadHash (Json.obj [("outer", Json.arr [Json.obj [("a", Json.num 1)]])]) =
      payloadHash (Json.obj [("outer", Json.arr [Json.obj [("a", Json.num 1), ("ts", Json.num 99)]])]) ∧
    (payloadHash (Json.obj [("outer", Json.arr [Json.obj [("a", Json.num 1)]])])).length = 64 :=
  ⟨fingerprint_stability.1 _ _
      (Relation.ReflTransGen.single
        (VolatileEdit.atField [] [] "outer" _ _
          (VolatileEdit.atElem [] [] _ _
            (VolatileEdit.setKey [("a", Json.num 1)] "ts" (Json.num 99) (by decide))))),
    fingerprint_stability.2.1 _⟩

theorem saveRawDataCore_cases (rows : List RawRecord) (clock : Nat) (u s c : String)
    (p : Json) (off : Int) (lf insf : Bool) :
    saveRawDataCore rows clock u s c p off lf insf = Except.error () ∨
    saveRawDataCore rows clock u s c p off lf insf = Except.ok (rows, SaveOutcome.skipped) ∨
    (insf = false ∧ ∃ r, saveRawDataCore rows clock u s c p off lf insf =
      Except.ok (rows ++ [r], SaveOutcome.inserted)) := by
  simp only [saveRawDataCore]
  split
  · exact Or.inl rfl
  · split
    · split
      · exact Or.inr (Or.inl rfl)
      · split
        · exact Or.inl rfl
        · split
          next hins => exact Or.inl rfl
          next hins =>
            exact Or.inr (Or.inr ⟨by simpa using hins, _, rfl⟩)
    · split
      · exact Or.inl rfl
      · split
        next hins => exact Or.inl rfl
        next hins =>
          exact Or.inr (Or.inr ⟨by simpa using hins, _, rfl⟩)

/-- C3: the gate never raises: a storage failure during the lookup or the
insert is swallowed as a soft failure leaving the lake untouched, and
every call appends exactly zero or one rows, preserving every existing
row unchanged (no updates, no deletes). -/
theorem ingestion_appends_at_most_one :
    ∀ (rows : List RawRecord) (clock : Nat) (u s c : String) (p : Json)
      (off : Int) (lf insf : Bool),
      ((saveRawData rows clock u s c p off lf insf).1 = rows ∨
        ∃ r, (saveRawData rows clock u s c p off lf insf).1 = rows ++ [r]) ∧
      (saveRawData rows clock u s c p off lf insf).1.take rows.length = rows ∧
      (lf = true → saveRawData rows clock u s c p off lf insf = (rows, SaveOutcome.failed)) ∧
      (insf = true → (saveRawData rows clock u s c p off lf insf).1 = rows) := by
  intro rows clock u s c p off lf insf
  have hc := saveRawDataCore_cases rows clock u s c p off lf insf
  have hmain : (saveRawData rows clock u s c p off lf insf).1 = rows ∨
      ∃ r, (saveRawData rows clock u s c p off lf insf).1 = rows ++ [r] := by
    unfold saveRawData
    rcases hc with h | h | ⟨_, r, h⟩ <;> rw [h]
    · exact Or.inl rfl
    · exact Or.inl rfl
    · exact Or.inr ⟨r, rfl⟩
  refine ⟨hmain, ?_, ?_, ?_⟩
  · rcases hmain with h | ⟨r, h⟩ <;> rw [h]
    · exact List.take_length rows
    · exact List.take_left rows [r]
  · intro hlf
    subst hlf
    unfold saveRawData
    have : saveRawDataCore rows clock u s c p off true insf = Except.error () := by
      simp [saveRawDataCore]
    rw [this]
  · intro hinsf
    subst hinsf
    unfold saveRawData
    rcases hc with h | h | ⟨hfalse, _⟩
    · rw [h]
    · rw [h]
    · exact absurd hfalse (by simp)

theorem extract_isOk_indep (p : Json) (fb1 fb2 : CivilDT) (off : Int) :
    pyOk (extractRecordedAt p fb1 off) = pyOk (extractRecordedAt p fb2 off) := by
  cases p <;> simp only [extractRecordedAt, pyOk]
  case obj fs =>
    cases epochScan fs epochKeys with
    | error e => rfl
    | ok o =>
        cases o with
        | some d => rfl
        | none =>
            cases isoScan fs off isoKeys with
            | error e => rfl
            | ok o2 => cases o2 <;> rfl

theorem extractOk_of_concrete {p : Json} {off : Int}
    (h : pyOk (extractRecordedAt p ⟨1970, 1, 1, 0, 0, 0, 0⟩ off) = true) :
    extractOk p off :=
  fun fb => (extract_isOk_indep p fb ⟨1970, 1, 1, 0, 0, 0, 0⟩ off).trans h

theorem latestStep_some (u s c : String) (b : RawRecord) (r : RawRecord) :
    ∃ x, latestStep u s c (some b) r = some x := by
  unfold latestStep
  by_cases hm : matchesKey r u s c
  · simp only [hm, if_true]
    by_cases hf : b.fetched_at ≤ r.fetched_at
    · exact ⟨r, by simp [hf]⟩
    · exact ⟨b, by simp [hf]⟩
  · exact ⟨b, by simp [hm]⟩

theorem latestRecord_acc_some (u s c : String) :
    ∀ (l : List RawRecord) (b : RawRecord),
      ∃ r, l.foldl (latestStep u s c) (some b) = some r := by
  intro l
  induction l with
  | nil => exact fun b => ⟨b, rfl⟩
  | cons x xs ih =>
      intro b
      obtain ⟨y, hy⟩ := latestStep_some u s c b x
      simpa [List.foldl, hy] using ih y

theorem latestRecord_none_filter (l : List RawRecord) (u s c : String)
    (h : latestRecord l u s c = none) :
    l.filter (fun r => matchesKey r u s c) = [] := by
  induction l with
  | nil => rfl
  | cons x xs ih =>
      by_cases hm : matchesKey x u s c
      · exfalso
        have hstep : latestStep u s c none x = some x := by simp [latestStep, hm]
        have : latestRecord (x :: xs) u s c = xs.foldl (latestStep u s c) (some x) := by
          simp [latestRecord, List.foldl, hstep]
        obtain ⟨r, hr⟩ := latestRecord_acc_some u s c xs x
        rw [this, hr] at h
        exact Option.noConfusion h
      · have hstep : latestStep u s c none x = none := by simp [latestStep, hm]
        have hx : latestRecord (x :: xs) u s c = latestRecord xs u s c := by
          simp [latestRecord, List.foldl, hstep]
        rw [hx] at h
        simp [List.filter, hm, ih h]

theorem latestRecord_snoc (l : List RawRecord) (u s c : String) (r : RawRecord) :
    latestRecord (l ++ [r]) u s c = latestStep u s c (latestRecord l u s c) r := by
  simp [latestRecord, List.foldl_append]

theorem keyCount_snoc (l : List RawRecord) (u s c : String) (r : RawRecord) :
    keyCount (l ++ [r]) u s c =
      keyCount l u s c + (if matchesKey r u s c then 1 else 0) := by
  by_cases hm : matchesKey r u s c <;> simp [keyCount, List.filter_append, hm]

theorem matchesKey_mk (u s c : String) (clock : Nat) (recAt : String) (p : Json) :
    matchesKey ⟨u, s, c, clock, recAt, p⟩ u s c = true := by
  simp [matchesKey]

theorem pyOk_iff {α : Type} (x : Except PyErr α) :
    pyOk x = true ↔ ∃ a, x = Except.ok a := by
  cases x <;> simp [pyOk]

theorem ingest_skip (rows : List RawRecord) (clock : Nat) (u s c : String) (p : Json)
    (r : RawRecord) (hl : latestRecord rows u s c = some r)
    (hh : payloadHash r.payload = payloadHash p) :
    ingest rows clock u s c p = rows := by
  simp [ingest, saveRawData, saveRawDataCore, hl, hh]

theorem ingest_insert_none (rows : List RawRecord) (clock : Nat) (u s c : String)
    (p : Json) (recAt : String) (hl : latestRecord rows u s c = none)
    (hx : extractRecordedAt p (jdtOfEpoch clock 0) jstOff = Except.ok recAt) :
    ingest rows clock u s c p = rows ++ [⟨u, s, c, clock, recAt, p⟩] := by
  simp [ingest, saveRawData, saveRawDataCore, hl, hx]

theorem ingest_insert_diff (rows : List RawRecord) (clock : Nat) (u s c : String)
    (p : Json) (recAt : String) (r : RawRecord)
    (hl : latestRecord rows u s c = some r)
    (hh : ¬ payloadHash r.payload = payloadHash p)
    (hx : extractRecordedAt p (jdtOfEpoch clock 0) jstOff = Except.ok recAt) :
    ingest rows clock u s c p = rows ++ [⟨u, s, c, clock, recAt, p⟩] := by
  simp [ingest, saveRawData, saveRawDataCore, hl, hh, hx]

/-- C1: the gate signals the duplicate skip exactly when the fingerprint
of the incoming payload equals the fingerprint of the single most recent
stored record of the same (user_id, source, category); consequently, from
a key with no history, ingesting P twice stores exactly one record, a
further payload differing from P only in volatile keys stores nothing, a
payload with a different fingerprint stores a second record, and
re-ingesting P afterwards stores a third record, because deduplication is
last-record-only.  The extractOk hypotheses keep the scenario away from
the unrelated timestamp-normalizer overflow crash. -/
theorem ingestion_gate_dedup :
    (∀ (rows : List RawRecord) (clock : Nat) (u s c : String) (p : Json),
      (saveRawData rows clock u s c p jstOff false false).2 = SaveOutcome.skipped ↔
        ∃ r, latestRecord rows u s c = some r ∧
          payloadHash r.payload = payloadHash p) ∧
    (∀ (rows : List RawRecord) (clock : Nat) (u s c : String) (P P1 P2 : Json),
      latestRecord rows u s c = none →
      stripVolatile P1 = stripVolatile P →
      payloadHash P2 ≠ payloadHash P →
      extractOk P jstOff →
      extractOk P2 jstOff →
      keyCount rows u s c = 0 ∧
      keyCount (ingest rows clock u s c P) u s c = 1 ∧
      ingest (ingest rows clock u s c P) (clock + 1) u s c P =
        ingest rows clock u s c P ∧
      ingest (ingest rows clock u s c P) (clock + 2) u s c P1 =
        ingest rows clock u s c P ∧
      keyCount (ingest (ingest rows clock u s c P) (clock + 3) u s c P2) u s c = 2 ∧
      keyCount (ingest (ingest (ingest rows clock u s c P) (clock + 3) u s c P2)
        (clock + 4) u s c P) u s c = 3) := by
  constructor
  · intro rows clock u s c p
    constructor
    · intro hout
      simp only [saveRawData, saveRawDataCore] at hout
      cases hl : latestRecord rows u s c with
      | none =>
          rw [hl] at hout
          simp only [if_neg (by simp : ¬ (false = true))] at hout
          cases hx : extractRecordedAt p (jdtOfEpoch clock 0) jstOff with
          | error e => rw [hx] at hout; simp at hout
          | ok recAt => rw [hx] at hout; simp at hout
      | some r =>
          rw [hl] at hout
          by_cases hh : payloadHash r.payload = payloadHash p
          · exact ⟨r, rfl, hh⟩
          · simp only [if_neg (by simp : ¬ (false = true)), if_neg hh] at hout
            cases hx : extractRecordedAt p (jdtOfEpoch clock 0) jstOff with
            | error e => rw [hx] at hout; simp at hout
            | ok recAt => rw [hx] at hout; simp at hout
    · rintro ⟨r, hl, hh⟩
      simp [saveRawData, saveRawDataCore, hl, hh]
  · intro rows clock u s c P P1 P2 hfresh hvol hdiff hPok hP2ok
    have hcount0 : keyCount rows u s c = 0 := by
      simp [keyCount, latestRecord_none_filter rows u s c hfresh]
    obtain ⟨rec1, hrec1⟩ := (pyOk_iff _).mp (hPok (jdtOfEpoch clock 0))
    have hl1 : ingest rows clock u s c P = rows ++ [⟨u, s, c, clock, rec1, P⟩] :=
      ingest_insert_none rows clock u s c P rec1 hfresh hrec1
    have hlatest1 : latestRecord (ingest rows clock u s c P) u s c =
        some ⟨u, s, c, clock, rec1, P⟩ := by
      rw [hl1, latestRecord_snoc, hfresh]
      simp [latestStep, matchesKey_mk]
    have hcount1 : keyCount (ingest rows clock u s c P) u s c = 1 := by
      rw [hl1, keyCount_snoc, hcount0, matchesKey_mk]
      simp
    have hskip2 : ingest (ingest rows clock u s c P) (clock + 1) u s c P =
        ingest rows clock u s c P :=
      ingest_skip _ _ u s c P _ hlatest1 rfl
    have hskip3 : ingest (ingest rows clock u s c P) (clock + 2) u s c P1 =
        ingest rows clock u s c P :=
      ingest_skip _ _ u s c P1 _ hlatest1 (payloadHash_strip_congr hvol).symm
    obtain ⟨rec2, hrec2⟩ := (pyOk_iff _).mp (hP2ok (jdtOfEpoch (clock + 3) 0))
    have hl4 : ingest (ingest rows clock u s c P) (clock + 3) u s c P2 =
        ingest rows clock u s c P ++ [⟨u, s, c, clock + 3, rec2, P2⟩] :=
      ingest_insert_diff _ _ u s c P2 rec2 _ hlatest1 (fun h => hdiff h.symm) hrec2
    have hcount2 : keyCount (ingest (ingest rows clock u s c P) (clock + 3) u s c P2)
        u s c = 2 := by
      rw [hl4, keyCount_snoc, hcount1, matchesKey_mk]
      simp
    have hlatest4 : latestRecord (ingest (ingest rows clock u s c P) (clock + 3)
        u s c P2) u s c = some ⟨u, s, c, clock + 3, rec2, P2⟩ := by
      rw [hl4, latestRecord_snoc, hlatest1]
      simp [latestStep, matchesKey_mk]
    obtain ⟨rec3, hrec3⟩ := (pyOk_iff _).mp (hPok (jdtOfEpoch (clock + 4) 0))
    have hl5 : ingest (ingest (ingest rows clock u s c P) (clock + 3) u s c P2)
        (clock + 4) u s c P =
        ingest (ingest rows clock u s c P) (clock + 3) u s c P2 ++
          [⟨u, s, c, clock + 4, rec3, P⟩] :=
      ingest_insert_diff _ _ u s c P rec3 _ hlatest4 hdiff hrec3
    have hcount3 : keyCount (ingest (ingest (ingest rows clock u s c P) (clock + 3)
        u s c P2) (clock + 4) u s c P) u s c = 3 := by
      rw [hl5, keyCount_snoc, hcount2, matchesKey_mk]
      simp
    exact ⟨hcount0, hcount1, hskip2, hskip3, hcount2, hcount3⟩

/-- Witness for C1: on an empty lake, the scenario payloads store one,
then two, then three records. -/
theorem ingestion_gate_dedup_witness :
    keyCount (ingest [] 0 "u" "oura" "sleep" (Json.obj [("a", Json.num 1)]))
      "u" "oura" "sleep" = 1 ∧
    keyCount (ingest (ingest (ingest [] 0 "u" "oura" "sleep"
        (Json.obj [("a", Json.num 1)])) 3 "u" "oura" "sleep"
        (Json.obj [("a", Json.num 2)])) 4 "u" "oura" "sleep"
        (Json.obj [("a", Json.num 1)])) "u" "oura" "sleep" = 3 := by
  have h := ingestion_gate_dedup.2 [] 0 "u" "oura" "sleep"
    (Json.obj [("a", Json.num 1)]) (Json.obj [("a", Json.num 1), ("ts", Json.num 5)])
    (Json.obj [("a", Json.num 2)]) rfl rfl (by decide)
    (extractOk_of_concrete (by decide)) (extractOk_of_concrete (by decide))
  exact ⟨h.2.1, h.2.2.2.2.2⟩

theorem exceptBind_ok {α β : Type} (a : α) (f : α → Except PyErr β) :
    (Except.ok a >>= f) = f a := rfl

theorem exceptBind_err {α β : Type} (e : PyErr) (f : α → Except PyErr β) :
    ((Except.error e : Except PyErr α) >>= f) = Except.error e := rfl

theorem exceptPure {α : Type} (a : α) : (pure a : Except PyErr α) = Except.ok a := rfl

theorem addToBucket_keys (bs : List ((String × String) × List LakeRow))
    (k key : String × String) (r : LakeRow) :
    key ∈ (addToBucket bs k r).map (fun b => b.1) ↔
      key ∈ bs.map (fun b => b.1) ∨ key = k := by
  unfold addToBucket
  by_cases h : bs.any (fun b => b.1 = k)
  · have hk : k ∈ bs.map (fun b => b.1) := by
      obtain ⟨b, hb, he⟩ := List.any_eq_true.mp h
      exact List.mem_map.mpr ⟨b, hb, by simpa using he⟩
    have hmap : (bs.map (fun b => if b.1 = k then (b.1, b.2 ++ [r]) else b)).map
        (fun b => b.1) = bs.map (fun b => b.1) := by
      rw [List.map_map]
      apply List.map_congr_left
      intro b _
      by_cases hb : b.1 = k <;> simp [hb]
    simp only [h, if_true, hmap]
    constructor
    · exact Or.inl
    · rintro (hm | he)
      · exact hm
      · exact he ▸ hk
  · simp [h]

theorem buildBuckets_sound (rows : List LakeRow) :
    ∀ (bs0 bs : List ((String × String) × List LakeRow)),
      rows.foldlM (fun bs r =>
        match toJstDate r.fetched_at with
        | none => Except.error PyErr.valueError
        | some d => Except.ok (addToBucket bs (r.source, d) r)) bs0 = Except.ok bs →
      (∀ key ∈ bs0.map (fun b => b.1), key ∈ bs.map (fun b => b.1)) ∧
      (∀ r ∈ rows, ∃ d, toJstDate r.fetched_at = some d ∧
        (r.source, d) ∈ bs.map (fun b => b.1)) := by
  induction rows with
  | nil =>
      intro bs0 bs h
      simp only [List.foldlM_nil] at h
      cases h
      exact ⟨fun key hk => hk, by simp⟩
  | cons r rest ih =>
      intro bs0 bs h
      simp only [List.foldlM_cons] at h
      cases hd : toJstDate r.fetched_at with
      | none =>
          rw [hd] at h
          rw [exceptBind_err] at h
          exact absurd h (by simp)
      | some d =>
          rw [hd] at h
          rw [exceptBind_ok] at h
          obtain ⟨hmono, hmem⟩ := ih (addToBucket bs0 (r.source, d) r) bs h
          refine ⟨?_, ?_⟩
          · intro key hk
            exact hmono key ((addToBucket_keys bs0 (r.source, d) key r).mpr (Or.inl hk))
          · intro r2 hr2
            rcases List.mem_cons.mp hr2 with rfl | hrest
            · exact ⟨d, hd, hmono _
                ((addToBucket_keys bs0 (r2.source, d) (r2.source, d) r2).mpr (Or.inr rfl))⟩
            · exact hmem r2 hrest

theorem mapBuckets_keys (buckets : List ((String × String) × List LakeRow)) :
    ∀ entries, mapBuckets buckets = Except.ok entries →
      entries.map (fun b => b.1) = buckets.map (fun b => b.1) := by
  induction buckets with
  | nil =>
      intro entries h
      cases h
      rfl
  | cons b rest ih =>
      intro entries h
      unfold mapBuckets at h
      cases he : bucketEntry b.1.1 b.2 with
      | error e => rw [he] at h; exact absurd h (by simp)
      | ok entry =>
          rw [he] at h
          cases hr : mapBuckets rest with
          | error e2 => rw [hr] at h; exact absurd h (by simp)
          | ok tailEntries =>
              rw [hr] at h
              cases h
              simp [ih tailEntries hr]

/-- C5: date bucketing converts fetched_at to JST before truncating to a
calendar date: the concrete UTC instant 2026-02-11T23:30:00+00:00 buckets
under 2026-02-12, and in general every aggregated row appears under the
key (source, JST date of fetched_at). -/
theorem arrival_grouping_jst :
    toJstDate "2026-02-11T23:30:00+00:00" = some "2026-02-12" ∧
    ∀ rows entries, getDataArrivalRich rows = Except.ok entries →
      ∀ r ∈ rows, ∃ d, toJstDate r.fetched_at = some d ∧
        (r.source, d) ∈ entries.map (fun b => b.1) := by
  refine ⟨by decide, ?_⟩
  intro rows entries h r hr
  unfold getDataArrivalRich at h
  cases hb : buildBuckets rows with
  | error e => rw [hb] at h; exact absurd h (by simp)
  | ok buckets =>
      rw [hb] at h
      obtain ⟨_, hmem⟩ := buildBuckets_sound rows [] buckets hb
      obtain ⟨d, hd, hkey⟩ := hmem r hr
      exact ⟨d, hd, (mapBuckets_keys buckets entries h) ▸ hkey⟩

/-- Witness for C5: a single oura record fetched at the concrete UTC
instant produces an entry keyed (oura, 2026-02-12). -/
theorem arrival_grouping_jst_witness :
    ∃ entries, getDataArrivalRich
        [⟨"oura", "sleep", "2026-02-11T23:30:00+00:00", Json.obj []⟩] =
        Except.ok entries ∧
      ("oura", "2026-02-12") ∈ entries.map (fun b => b.1) := by
  have hok : getDataArrivalRich
      [⟨"oura", "sleep", "2026-02-11T23:30:00+00:00", Json.obj []⟩] =
      Except.ok [(("oura", "2026-02-12"), ⟨true, some [], none, none⟩)] := rfl
  refine ⟨_, hok, ?_⟩
  obtain ⟨d, hd, hm⟩ := arrival_grouping_jst.2 _ _ hok
    ⟨"oura", "sleep", "2026-02-11T23:30:00+00:00", Json.obj []⟩ (by simp)
  have hde : d = "2026-02-12" := by
    have h1 := arrival_grouping_jst.1
    rw [show (⟨"oura", "sleep", "2026-02-11T23:30:00+00:00",
      Json.obj []⟩ : LakeRow).fetched_at = "2026-02-11T23:30:00+00:00" from rfl] at hd
    rw [h1] at hd
    exact (Option.some_inj.mp hd).symm
  exact hde ▸ hm

/-- C8: for a 7-day window the footprint grid always renders one cell,
filled or empty, per known source per trailing calendar date: the cell
keys equal the full product of the five sources with the seven dates
today-6 .. today, whatever the rich history holds, including an empty
one. -/
theorem footprint_grid_complete :
    ∀ (rich : List ((String × String) × ArrivalEntry)) (today : Int),
      (buildFootprintCells rich 7 today).map (fun cl => (cl.source, cl.date)) =
        footprintSources.flatMap (fun s =>
          (dateRangeFor today 7).map (fun d => (s, dayNumStr d))) ∧
      dateRangeFor today 7 =
        [today - 6, today - 5, today - 4, today - 3, today - 2, today - 1, today] ∧
      (buildFootprintCells rich 7 today).length = 35 := by
  intro rich today
  have hrange : dateRangeFor today 7 =
      [today - 6, today - 5, today - 4, today - 3, today - 2, today - 1, today] := by
    simp [dateRangeFor, List.range_succ]
  refine ⟨?_, hrange, ?_⟩
  · simp only [buildFootprintCells, List.map_flatMap, List.map_map]
    rfl
  · simp [buildFootprintCells, hrange, footprintSources]

/-- C9: the vestigial contributors membership test in _build_oura_badge
raises TypeError on a payload mapping contributors to a non-container
value, so a score-less malformed payload can abort the whole arrival
aggregation instead of yielding a presence cell with an empty badge. -/
theorem oura_contributors_raises :
    buildOuraBadge [⟨"oura", "sleep", "2026-02-11T07:00:00+09:00",
        Json.obj [("contributors", Json.null)]⟩] =
      Except.error PyErr.typeError ∧
    getDataArrivalRich [⟨"oura", "sleep", "2026-02-11T07:00:00+09:00",
        Json.obj [("contributors", Json.null)]⟩] =
      Except.error PyErr.typeError :=
  ⟨rfl, rfl⟩

/-- Counterexample for C7: two same-day oura sleep rows, the query order
newest first, leave the earlier-fetched score 50 in the badge, not the
later-fetched 90; likewise the withings weight comes from the
earlier-fetched record. -/
theorem arrival_tiebreak_counterexample :
    instantOf "2026-02-11T07:00:00+09:00" < instantOf "2026-02-11T08:00:00+09:00" ∧
    buildOuraBadge
        [⟨"oura", "sleep", "2026-02-11T08:00:00+09:00", Json.obj [("score", Json.num 90)]⟩,
         ⟨"oura", "sleep", "2026-02-11T07:00:00+09:00", Json.obj [("score", Json.num 50)]⟩] =
      Except.ok [("sleep_score", Json.num 50)] ∧
    (Json.num 50 ≠ Json.num 90) ∧
    buildWithingsBadge
        [⟨"withings", "measure", "2026-02-11T08:00:00+09:00",
          Json.obj [("weight", Json.num (145 / 2))]⟩,
         ⟨"withings", "measure", "2026-02-11T07:00:00+09:00",
          Json.obj [("weight", Json.num 70)]⟩] =
      Except.ok [("weight_kg", Json.num 70)] ∧
    (Json.num 70 ≠ Json.num (145 / 2)) := by
  refine ⟨by decide, rfl, ?_, by with_unfolding_all rfl, ?_⟩
  · intro h
    injection h with h2
    norm_num at h2
  · intro h
    injection h with h2
    norm_num at h2

theorem optLast_cons {α : Type} (a : α) (l : List α) :
    (a :: l).getLast? = match l.getLast? with
      | some b => some b
      | none => some a := by
  cases l with
  | nil => rfl
  | cons b l2 =>
      rw [List.getLast?_cons_cons]
      cases hb : (b :: l2).getLast? with
      | some x => rfl
      | none => exact absurd hb (by simp)

theorem getLast_mem {α : Type} : ∀ (l : List α) (x : α), l.getLast? = some x → x ∈ l := by
  intro l
  induction l with
  | nil => intro x h; exact absurd h (by simp)
  | cons a l2 ih =>
      intro x h
      rw [optLast_cons] at h
      cases hl : l2.getLast? with
      | some b =>
          rw [hl] at h
          cases h
          exact List.mem_cons_of_mem a (ih _ hl)
      | none =>
          rw [hl] at h
          cases h
          exact List.mem_cons_self _ _

theorem getLast_le_of_pairwise {α : Type} (f : α → Int) :
    ∀ (l : List α), List.Pairwise (fun a b => f b ≤ f a) l →
      ∀ x, l.getLast? = some x → ∀ y ∈ l, f x ≤ f y := by
  intro l
  induction l with
  | nil => intro _ x h; exact absurd h (by simp)
  | cons a l2 ih =>
      intro hp x hx y hy
      obtain ⟨ha, hp2⟩ := List.pairwise_cons.mp hp
      rw [optLast_cons] at hx
      cases hl : l2.getLast? with
      | some b =>
          rw [hl] at hx
          cases hx
          rcases List.mem_cons.mp hy with rfl | hy2
          · exact ha x (getLast_mem l2 x hl)
          · exact ih hp2 x hl y hy2
      | none =>
          rw [hl] at hx
          cases hx
          have hnil : l2 = [] := List.getLast?_eq_none_iff.mp hl
          subst hnil
          rcases List.mem_cons.mp hy with rfl | hy2
          · exact le_refl _
          · exact absurd hy2 (by simp)

theorem filterMap_getLast_bind {α β : Type} (f : α → Option β) :
    ∀ l : List α, (l.filterMap f).getLast? =
      ((l.filter (fun x => (f x).isSome)).getLast?).bind f := by
  intro l
  induction l with
  | nil => rfl
  | cons a l2 ih =>
      cases hfa : f a with
      | none =>
          rw [List.filterMap_cons_none hfa, List.filter_cons_of_neg (by simp [hfa])]
          exact ih
      | some b =>
          rw [List.filterMap_cons_some hfa, List.filter_cons_of_pos (by simp [hfa]),
            optLast_cons, optLast_cons]
          cases hl : (l2.filter (fun x => (f x).isSome)).getLast? with
          | some r =>
              have hr : (f r).isSome := by
                have := List.mem_filter.mp (getLast_mem _ _ hl)
                simpa using this.2
              obtain ⟨w, hw⟩ := Option.isSome_iff_exists.mp hr
              have ihr : (List.filterMap f l2).getLast? = some w := by
                rw [ih, hl]
                show f r = some w
                exact hw
              rw [ihr]
              show some w = f r
              exact hw.symm
          | none =>
              have ihr : (List.filterMap f l2).getLast? = none := by
                rw [ih, hl]
                rfl
              rw [ihr]
              show some b = f a
              exact hfa.symm

theorem flatMap_getLast_bind {α β : Type} (f : α → List β) :
    ∀ l : List α, (l.flatMap f).getLast? =
      ((l.filter (fun x => !(f x).isEmpty)).getLast?).bind (fun x => (f x).getLast?) := by
  intro l
  induction l with
  | nil => rfl
  | cons a l2 ih =>
      rw [List.flatMap_cons]
      by_cases ha : (f a).isEmpty
      · have hfa : f a = [] := by simpa using ha
        rw [hfa, List.filter_cons_of_neg (by simp [ha]), List.nil_append]
        exact ih
      · rw [List.filter_cons_of_pos (by simp [ha]), List.getLast?_append, optLast_cons]
        cases hl : (l2.filter (fun x => !(f x).isEmpty)).getLast? with
        | some r =>
            have hr : ¬ (f r).isEmpty := by
              have := List.mem_filter.mp (getLast_mem _ _ hl)
              simpa using this.2
            have hfr : ∃ w, (f r).getLast? = some w := by
              cases hfr2 : f r with
              | nil => rw [hfr2] at hr; exact absurd rfl hr
              | cons c l3 =>
                  rw [optLast_cons]
                  cases hc : l3.getLast? with
                  | some w => exact ⟨w, rfl⟩
                  | none => exact ⟨c, rfl⟩
            obtain ⟨w, hw⟩ := hfr
            have ihr : (l2.flatMap f).getLast? = some w := by
              rw [ih, hl]
              show (f r).getLast? = some w
              exact hw
            rw [ihr]
            show some w = (f r).getLast?
            exact hw.symm
        | none =>
            have ihr : (l2.flatMap f).getLast? = none := by
              rw [ih, hl]
              rfl
            rw [ihr]
            show (f a).getLast? = (f a).getLast?
            rfl

theorem pyLookup_set_same (d : List (String × Json)) (k : String) (v : Json) :
    pyLookup (pyDictSet d k v) k = some v := by
  induction d with
  | nil => simp [pyDictSet, pyLookup, pyGet]
  | cons kv rest ih =>
      obtain ⟨k0, v0⟩ := kv
      by_cases hk : k0 = k
      · simp [pyDictSet, hk, pyLookup, pyGet]
      · simp only [pyDictSet, if_neg hk]
        simpa [pyLookup, pyGet, List.find?, hk] using ih

theorem pyLookup_set_other (d : List (String × Json)) (k : String) (v : Json)
    (k2 : String) (h : k2 ≠ k) :
    pyLookup (pyDictSet d k v) k2 = pyLookup d k2 := by
  induction d with
  | nil =>
      simp [pyDictSet, pyLookup, pyGet, List.find?,
        show ¬ (k = k2) from fun he => h he.symm]
  | cons kv rest ih =>
      obtain ⟨k0, v0⟩ := kv
      by_cases hk : k0 = k
      · subst hk
        simp [pyDictSet, pyLookup, pyGet, List.find?,
          show ¬ (k0 = k2) from fun he => h he.symm]
      · simp only [pyDictSet, if_neg hk]
        by_cases h2 : k0 = k2
        · simp [pyLookup, pyGet, List.find?, h2]
        · simpa [pyLookup, pyGet, List.find?, h2] using ih

theorem pyGet_of_any (fs : List (String × Json)) (k : String)
    (h : fs.any (fun kv => kv.1 = k) = true) : ∃ v, pyGet fs k = some v := by
  induction fs with
  | nil => simp at h
  | cons kv rest ih =>
      by_cases hk : kv.1 = k
      · exact ⟨kv.2, by simp [pyGet, List.find?, hk]⟩
      · simp only [List.any_cons, Bool.or_eq_true, decide_eq_true_eq] at h
        rcases h with h | h
        · exact absurd h hk
        · obtain ⟨v, hv⟩ := ih h
          exact ⟨v, by simpa [pyGet, List.find?, hk] using hv⟩

theorem ouraStep_lookup (badge b2 : List (String × Json)) (r : LakeRow) (field : String)
    (hf : field = "sleep_score" ∨ field = "activity_score" ∨
      field = "readiness_score" ∨ field = "steps")
    (h : ouraStep badge r = Except.ok b2) :
    pyLookup b2 field =
      match ouraSetter field r with
      | some v => some v
      | none => pyLookup badge field := by
  cases hp : r.payload with
  | obj fs =>
      simp only [ouraStep, hp] at h
      split at h
      · exact absurd h (by simp)
      · have hscore :
          pyLookup (if r.category = "sleep" ∧ fs.any (fun kv => kv.1 = "score") = true then
              pyDictSet badge "sleep_score" ((pyGet fs "score").getD Json.null)
            else if r.category = "activity" ∧ fs.any (fun kv => kv.1 = "score") = true then
              pyDictSet badge "activity_score" ((pyGet fs "score").getD Json.null)
            else if r.category = "readiness" ∧ fs.any (fun kv => kv.1 = "score") = true then
              pyDictSet badge "readiness_score" ((pyGet fs "score").getD Json.null)
            else badge) field =
            match (if field = "sleep_score" then
                (if r.category = "sleep" ∧ fs.any (fun kv => kv.1 = "score") = true then
                  pyGet fs "score" else none)
              else if field = "activity_score" then
                (if r.category = "activity" ∧ fs.any (fun kv => kv.1 = "score") = true then
                  pyGet fs "score" else none)
              else if field = "readiness_score" then
                (if r.category = "readiness" ∧ fs.any (fun kv => kv.1 = "score") = true then
                  pyGet fs "score" else none)
              else none) with
            | some v => some v
            | none => pyLookup badge field := by
          by_cases hsl : r.category = "sleep" ∧ fs.any (fun kv => kv.1 = "score") = true
          · obtain ⟨v, hv⟩ := pyGet_of_any fs "score" hsl.2
            rcases hf with rfl | rfl | rfl | rfl <;>
              simp [hsl, hv, pyLookup_set_same, pyLookup_set_other]
          · by_cases hac : r.category = "activity" ∧ fs.any (fun kv => kv.1 = "score") = true
            · obtain ⟨v, hv⟩ := pyGet_of_any fs "score" hac.2
              rcases hf with rfl | rfl | rfl | rfl <;>
                simp [hsl, hac, hv, pyLookup_set_same, pyLookup_set_other]
            · by_cases hrd : r.category = "readiness" ∧
                fs.any (fun kv => kv.1 = "score") = true
              · obtain ⟨v, hv⟩ := pyGet_of_any fs "score" hrd.2
                rcases hf with rfl | rfl | rfl | rfl <;>
                  simp [hsl, hac, hrd, hv, pyLookup_set_same, pyLookup_set_other]
              · rcases hf with rfl | rfl | rfl | rfl <;>
                  (simp only [if_neg hsl, if_neg hac, if_neg hrd]; simp)
        split at h
        next hst =>
          cases h
          rcases hf with rfl | rfl | rfl | rfl
          · rw [pyLookup_set_other _ _ _ _ (by decide), hscore]
            simp [ouraSetter, hp]
          · rw [pyLookup_set_other _ _ _ _ (by decide), hscore]
            simp [ouraSetter, hp]
          · rw [pyLookup_set_other _ _ _ _ (by decide), hscore]
            simp [ouraSetter, hp]
          · obtain ⟨v, hv⟩ := pyGet_of_any fs "steps" hst
            rw [pyLookup_set_same]
            simp [ouraSetter, hp, hst, hv]
        next hst =>
          cases h
          rcases hf with rfl | rfl | rfl | rfl
          · rw [hscore]
            simp [ouraSetter, hp]
          · rw [hscore]
            simp [ouraSetter, hp]
          · rw [hscore]
            simp [ouraSetter, hp]
          · rw [hscore]
            simp [ouraSetter, hp, hst]
  | null =>
      simp only [ouraStep, hp] at h
      cases h
      simp [ouraSetter, hp]
  | bool b =>
      simp only [ouraStep, hp] at h
      cases h
      simp [ouraSetter, hp]
  | num q =>
      simp only [ouraStep, hp] at h
      cases h
      simp [ouraSetter, hp]
  | str s =>
      simp only [ouraStep, hp] at h
      cases h
      simp [ouraSetter, hp]
  | arr xs =>
      simp only [ouraStep, hp] at h
      cases h
      simp [ouraSetter, hp]

theorem buildOura_fold_lookup (field : String)
    (hf : field = "sleep_score" ∨ field = "activity_score" ∨
      field = "readiness_score" ∨ field = "steps") :
    ∀ (rows : List LakeRow) (badge0 badge : List (String × Json)),
      rows.foldlM ouraStep badge0 = Except.ok badge →
      pyLookup badge field =
        match (rows.filterMap (ouraSetter field)).getLast? with
        | some v => some v
        | none => pyLookup badge0 field := by
  intro rows
  induction rows with
  | nil =>
      intro badge0 badge h
      cases h
      rfl
  | cons r rest ih =>
      intro badge0 badge h
      simp only [List.foldlM_cons] at h
      cases hs : ouraStep badge0 r with
      | error e =>
          rw [hs, exceptBind_err] at h
          exact absurd h (by simp)
      | ok b1 =>
          rw [hs, exceptBind_ok] at h
          have hrec := ih b1 badge h
          have hstep := ouraStep_lookup badge0 b1 r field hf hs
          rw [hrec]
          cases hset : ouraSetter field r with
          | some v =>
              rw [List.filterMap_cons_some hset, optLast_cons]
              cases hl : (rest.filterMap (ouraSetter field)).getLast? with
              | some w => rfl
              | none =>
                  rw [hstep, hset]
          | none =>
              rw [List.filterMap_cons_none hset]
              cases hl : (rest.filterMap (ouraSetter field)).getLast? with
              | some w => rfl
              | none =>
                  rw [hstep, hset]

theorem withings_fold_weights :
    ∀ (rows : List LakeRow) (acc w : List Rat),
      rows.foldlM (fun acc r => do
        let ws ← withingsRowWeights r
        pure (acc ++ ws)) acc = Except.ok w →
      w = acc ++ rows.flatMap rowWeightsD := by
  intro rows
  induction rows with
  | nil =>
      intro acc w h
      cases h
      simp
  | cons r rest ih =>
      intro acc w h
      simp only [List.foldlM_cons] at h
      cases hw : withingsRowWeights r with
      | error e =>
          rw [hw] at h
          rw [show ((Except.error e : Except PyErr (List Rat)) >>=
            fun ws => pure (acc ++ ws)) = (Except.error e : Except PyErr (List Rat))
            from rfl, exceptBind_err] at h
          exact absurd h (by simp)
      | ok ws =>
          rw [hw] at h
          rw [show ((Except.ok ws : Except PyErr (List Rat)) >>=
            fun ws2 => pure (acc ++ ws2)) = Except.ok (acc ++ ws) from rfl,
            exceptBind_ok] at h
          have := ih (acc ++ ws) w h
          rw [this, List.flatMap_cons]
          rw [show rowWeightsD r = ws by simp [rowWeightsD, hw]]
          simp

theorem buildWithings_eq (rows : List LakeRow) (bd : List (String × Json))
    (h : buildWithingsBadge rows = Except.ok bd) :
    bd = match (rows.flatMap rowWeightsD).getLast? with
      | some w => [("weight_kg", Json.num (round1 w))]
      | none => [] := by
  unfold buildWithingsBadge at h
  cases hfold : rows.foldlM (fun acc r => do
      let ws ← withingsRowWeights r
      pure (acc ++ ws)) ([] : List Rat) with
  | error e =>
      rw [hfold, exceptBind_err] at h
      exact absurd h (by simp)
  | ok w =>
      rw [hfold, exceptBind_ok] at h
      have hw : w = rows.flatMap rowWeightsD := withings_fold_weights rows [] w hfold
      rw [← hw]
      cases hl : w.getLast? with
      | some x =>
          rw [hl] at h
          cases h
          rfl
      | none =>
          rw [hl] at h
          cases h
          rfl

/-- C7 amended: within one (source, date) group each scalar badge field
takes the value of the last loop iteration that writes it; since the
query hands the builders their rows fetched_at-descending, the surviving
value is the one of the earliest-fetched record providing the field, and
the withings weight comes from the chronologically first record with a
valid weight (its last extracted measure), not the last one. -/
theorem arrival_tiebreak_iteration_order :
    (∀ rows badge (field : String), buildOuraBadge rows = Except.ok badge →
      (field = "sleep_score" ∨ field = "activity_score" ∨
        field = "readiness_score" ∨ field = "steps") →
      pyLookup badge field =
        ((rows.filter (fun r => (ouraSetter field r).isSome)).getLast?).bind
          (ouraSetter field)) ∧
    (∀ rows (field : String) r, FetchedDesc rows →
      (rows.filter (fun r2 => (ouraSetter field r2).isSome)).getLast? = some r →
      ∀ r2 ∈ rows, (ouraSetter field r2).isSome →
        instantOf r.fetched_at ≤ instantOf r2.fetched_at) ∧
    (∀ rows bd, buildWithingsBadge rows = Except.ok bd →
      bd = match ((rows.filter (fun r2 => !(rowWeightsD r2).isEmpty)).getLast?).bind
          (fun r2 => (rowWeightsD r2).getLast?) with
        | some w => [("weight_kg", Json.num (round1 w))]
        | none => []) ∧
    (∀ rows r, FetchedDesc rows →
      (rows.filter (fun r2 => !(rowWeightsD r2).isEmpty)).getLast? = some r →
      ∀ r2 ∈ rows, (rowWeightsD r2).isEmpty = false →
        instantOf r.fetched_at ≤ instantOf r2.fetched_at) := by
  refine ⟨?_, ?_, ?_, ?_⟩
  · intro rows badge field h hf
    have := buildOura_fold_lookup field hf rows [] badge h
    rw [this, ← filterMap_getLast_bind]
    cases (rows.filterMap (ouraSetter field)).getLast? <;> rfl
  · intro rows field r hdesc hlast r2 hr2 hsome
    have hd2 : List.Pairwise
        (fun a b => (fun x : LakeRow => instantOf x.fetched_at) b ≤
          (fun x : LakeRow => instantOf x.fetched_at) a) rows := hdesc
    exact getLast_le_of_pairwise (fun x => instantOf x.fetched_at) _
      (hd2.sublist (List.filter_sublist rows)) r hlast r2
      (List.mem_filter.mpr ⟨hr2, by simpa using hsome⟩)
  · intro rows bd h
    rw [buildWithings_eq rows bd h, flatMap_getLast_bind]
  · intro rows r hdesc hlast r2 hr2 hne
    have hd2 : List.Pairwise
        (fun a b => (fun x : LakeRow => instantOf x.fetched_at) b ≤
          (fun x : LakeRow => instantOf x.fetched_at) a) rows := hdesc
    exact getLast_le_of_pairwise (fun x => instantOf x.fetched_at) _
      (hd2.sublist (List.filter_sublist rows)) r hlast r2
      (List.mem_filter.mpr ⟨hr2, by simp [hne]⟩)

/-- Witness for the amended C7: on the two-record descending group the
badge keeps the earlier-fetched score, as the theorem dictates. -/
theorem arrival_tiebreak_iteration_order_witness :
    pyLookup [("sleep_score", Json.num 50)] "sleep_score" =
      ((([⟨"oura", "sleep", "2026-02-11T08:00:00+09:00",
            Json.obj [("score", Json.num 90)]⟩,
          ⟨"oura", "sleep", "2026-02-11T07:00:00+09:00",
            Json.obj [("score", Json.num 50)]⟩] :
          List LakeRow).filter
            (fun r => (ouraSetter "sleep_score" r).isSome)).getLast?).bind
        (ouraSetter "sleep_score") :=
  arrival_tiebreak_iteration_order.1 _ _ _ rfl (Or.inl rfl)

theorem monthWalk_bounds :
    ∀ (ls : List Nat) (doy m : Nat),
      (∀ l ∈ ls, 1 ≤ l ∧ l ≤ 31) → doy < ls.sum →
      m ≤ (monthWalk doy ls m).1 ∧ (monthWalk doy ls m).1 < m + ls.length ∧
        1 ≤ (monthWalk doy ls m).2 ∧ (monthWalk doy ls m).2 ≤ 31 := by
  intro ls
  induction ls with
  | nil =>
      intro doy m _ hs
      simp at hs
  | cons ml rest ih =>
      intro doy m hall hs
      have hml := hall ml (by simp)
      by_cases hd : doy < ml
      · simp only [monthWalk, if_pos hd]
        refine ⟨le_refl m, by simp, by omega, by omega⟩
      · simp only [monthWalk, if_neg hd]
        have hs2 : doy - ml < rest.sum := by
          simp only [List.sum_cons] at hs
          omega
        obtain ⟨hb1, hb2, hb3, hb4⟩ :=
          ih (doy - ml) (m + 1) (fun l hl => hall l (by simp [hl])) hs2
        refine ⟨by omega, ?_, hb3, hb4⟩
        simp only [List.length_cons]
        omega

theorem monthLens_all31 (b : Bool) : ∀ l ∈ monthLens b, 1 ≤ l ∧ l ≤ 31 := by
  cases b <;> decide

theorem monthLens_sum (b : Bool) : 365 ≤ (monthLens b).sum := by
  cases b <;> decide

theorem monthLens_length (b : Bool) : (monthLens b).length = 12 := by
  cases b <;> rfl

theorem civilFromDays_bounds (z : Int) :
    1 ≤ (civilFromDays z).2.1 ∧ (civilFromDays z).2.1 ≤ 12 ∧
      1 ≤ (civilFromDays z).2.2 ∧ (civilFromDays z).2.2 ≤ 31 := by
  simp only [civilFromDays]
  generalize ((z + 719162).emod 146097).toNat = r
  generalize (z + 719162).ediv 146097 = era
  by_cases hbranch : r % 36524 % 1461 / 365 = 4 ∨ r / 36524 = 4
  · rw [if_pos hbranch]
    exact ⟨by norm_num, by norm_num, by norm_num, by norm_num⟩
  · rw [if_neg hbranch]
    have hdoy : r % 36524 % 1461 % 365 < 365 := Nat.mod_lt _ (by omega)
    have hlt : r % 36524 % 1461 % 365 <
        (monthLens (decide (r % 36524 % 1461 / 365 = 3 ∧
          (r % 36524 / 1461 ≠ 24 ∨ r / 36524 = 3)))).sum :=
      lt_of_lt_of_le hdoy (monthLens_sum _)
    obtain ⟨hb1, hb2, hb3, hb4⟩ :=
      monthWalk_bounds _ (r % 36524 % 1461 % 365) 1 (monthLens_all31 _) hlt
    rw [monthLens_length] at hb2
    exact ⟨hb1, Nat.lt_succ_iff.mp hb2, hb3, hb4⟩

theorem jdtOfEpochOff_bounds (sec off : Int) (micro : Nat) :
    1 ≤ (jdtOfEpochOff sec off micro).month ∧ (jdtOfEpochOff sec off micro).month ≤ 12 ∧
    1 ≤ (jdtOfEpochOff sec off micro).day ∧ (jdtOfEpochOff sec off micro).day ≤ 31 ∧
    (jdtOfEpochOff sec off micro).hour < 24 ∧
    (jdtOfEpochOff sec off micro).minute < 60 ∧
    (jdtOfEpochOff sec off micro).second < 60 ∧
    (jdtOfEpochOff sec off micro).micro = micro := by
  have hc := civilFromDays_bounds (Int.ediv (sec + off) 86400)
  have hsod : (Int.emod (sec + off) 86400).toNat < 86400 := by
    have he : Int.emod (sec + off) 86400 = (sec + off) % 86400 := rfl
    rw [he]
    omega
  unfold jdtOfEpochOff
  refine ⟨hc.1, hc.2.1, hc.2.2.1, hc.2.2.2, ?_, ?_, ?_, rfl⟩
  · show (Int.emod (sec + off) 86400).toNat / 3600 < 24
    omega
  · show (Int.emod (sec + off) 86400).toNat / 60 % 60 < 60
    omega
  · show (Int.emod (sec + off) 86400).toNat % 60 < 60
    omega

theorem halfEvenRound_mem (q : Rat) :
    halfEvenRound q = q.floor ∨ halfEvenRound q = q.floor + 1 := by
  simp only [halfEvenRound]
  split
  · exact Or.inl rfl
  · split
    · exact Or.inr rfl
    · split
      · exact Or.inl rfl
      · exact Or.inr rfl

theorem micro_bound (q : Rat) :
    0 ≤ halfEvenRound ((q - (q.floor : Rat)) * 1000000) ∧
      halfEvenRound ((q - (q.floor : Rat)) * 1000000) ≤ 1000000 := by
  have h1 : ((q.floor : Rat)) ≤ q := by
    rw [show Rat.floor q = ⌊q⌋ from rfl]
    exact_mod_cast Int.floor_le q
  have h2 : q < (q.floor : Rat) + 1 := by
    rw [show Rat.floor q = ⌊q⌋ from rfl]
    exact_mod_cast Int.lt_floor_add_one q
  have hx0 : 0 ≤ (q - (q.floor : Rat)) * 1000000 := by nlinarith
  have hxlt : (q - (q.floor : Rat)) * 1000000 < 1000000 := by nlinarith
  have hfl0 : 0 ≤ ((q - (q.floor : Rat)) * 1000000).floor := by
    rw [show Rat.floor ((q - (q.floor : Rat)) * 1000000) =
      ⌊(q - (q.floor : Rat)) * 1000000⌋ from rfl]
    exact Int.floor_nonneg.mpr hx0
  have hfl1 : ((q - (q.floor : Rat)) * 1000000).floor < 1000000 := by
    rw [show Rat.floor ((q - (q.floor : Rat)) * 1000000) =
      ⌊(q - (q.floor : Rat)) * 1000000⌋ from rfl]
    exact Int.floor_lt.mpr (by exact_mod_cast hxlt)
  rcases halfEvenRound_mem ((q - (q.floor : Rat)) * 1000000) with h | h <;> rw [h] <;> omega

theorem fromtimestampJst_core_valid (t : Int) (us : Nat) (d : CivilDT)
    (hus : us < 1000000)
    (h : (if 9223372036854775808 ≤ t ∨ t ≤ -9223372036854775809 then
            (Except.error () : Except Unit (Option CivilDT))
          else if (jdtOfEpochOff t 0 us).year < 1 ∨ 9999 < (jdtOfEpochOff t 0 us).year then
            Except.ok none
          else if 1 ≤ (jdtOfEpoch t us).year ∧ (jdtOfEpoch t us).year ≤ 9999 then
            Except.ok (some (jdtOfEpoch t us))
          else Except.error ()) = Except.ok (some d)) :
    validJdt d := by
  split at h
  · exact absurd h (by simp)
  · split at h
    · exact absurd h (by simp)
    · split at h
      next hy =>
        cases h
        have hb := jdtOfEpochOff_bounds t jstOff us
        exact ⟨hy.1, hy.2, hb.1, hb.2.1, hb.2.2.1, hb.2.2.2.1, hb.2.2.2.2.1,
          hb.2.2.2.2.2.1, hb.2.2.2.2.2.2.1, by
            show (jdtOfEpochOff t jstOff us).micro < 1000000
            rw [hb.2.2.2.2.2.2.2]; exact hus⟩
      · exact absurd h (by simp)

theorem fromtimestampJst_valid (q : Rat) (d : CivilDT)
    (h : fromtimestampJst q = Except.ok (some d)) : validJdt d := by
  have hm := micro_bound q
  simp only [fromtimestampJst] at h
  by_cases hc : halfEvenRound ((q - (q.floor : Rat)) * 1000000) = 1000000
  · rw [if_pos hc] at h
    exact fromtimestampJst_core_valid (q.floor + 1) 0 d (by omega) h
  · rw [if_neg hc] at h
    exact fromtimestampJst_core_valid q.floor
      (halfEvenRound ((q - (q.floor : Rat)) * 1000000)).toNat d (by omega) h

/-- Witness for C3: a lookup failure on a one-record lake is swallowed
into a failed outcome that leaves the lake unchanged. -/
theorem ingestion_appends_at_most_one_witness :
    (true = true →
      saveRawData [⟨"u", "s", "c", 0, "r", Json.null⟩] 1 "u" "s" "c" (Json.obj [])
        jstOff true false = ([⟨"u", "s", "c", 0, "r", Json.null⟩], SaveOutcome.failed)) ∧
    (saveRawData [⟨"u", "s", "c", 0, "r", Json.null⟩] 1 "u" "s" "c" (Json.obj [])
        jstOff true false).1 = [⟨"u", "s", "c", 0, "r", Json.null⟩] :=
  ⟨(ingestion_appends_at_most_one [⟨"u", "s", "c", 0, "r", Json.null⟩] 1 "u" "s" "c"
      (Json.obj []) jstOff true false).2.2.1,
    ((ingestion_appends_at_most_one [⟨"u", "s", "c", 0, "r", Json.null⟩] 1 "u" "s" "c"
      (Json.obj []) jstOff true false).2.2.1 rfl) ▸ rfl⟩

theorem optSomeBind {α β : Type} (a : α) (f : α → Option β) :
    ((some a : Option α) >>= f) = f a := rfl

theorem optNoneBind {α β : Type} (f : α → Option β) :
    ((none : Option α) >>= f) = none := rfl

theorem optPure {α : Type} (a : α) : (pure a : Option α) = some a := rfl

theorem digitVal_le (c : Char) (v : Nat) (h : digitVal c = some v) : v ≤ 9 := by
  unfold digitVal at h
  split at h
  next hc => injection h with h2; omega
  next => exact absurd h (by simp)

theorem parse2_lt (cs : List Char) (n : Nat) (r : List Char)
    (h : parse2 cs = some (n, r)) : n < 100 := by
  match cs with
  | [] => exact absurd h (by simp [parse2])
  | [a] => exact absurd h (by simp [parse2])
  | a :: b :: rest =>
      simp only [parse2] at h
      cases hda : digitVal a with
      | none => rw [hda] at h; exact absurd h (by simp)
      | some x =>
        cases hdb : digitVal b with
        | none => rw [hda, hdb] at h; exact absurd h (by simp)
        | some y =>
          rw [hda, hdb] at h
          simp only [Option.some.injEq, Prod.mk.injEq] at h
          have hx := digitVal_le a x hda
          have hy := digitVal_le b y hdb
          omega

theorem parse4_lt (cs : List Char) (n : Nat) (r : List Char)
    (h : parse4 cs = some (n, r)) : n < 10000 := by
  match cs with
  | [] => exact absurd h (by simp [parse4])
  | [a] => exact absurd h (by simp [parse4])
  | [a, b] => exact absurd h (by simp [parse4])
  | [a, b, c] => exact absurd h (by simp [parse4])
  | a :: b :: c :: d :: rest =>
      simp only [parse4] at h
      cases hda : digitVal a with
      | none => rw [hda] at h; exact absurd h (by simp)
      | some w =>
        cases hdb : digitVal b with
        | none => rw [hda, hdb] at h; exact absurd h (by simp)
        | some x =>
          cases hdc : digitVal c with
          | none => rw [hda, hdb, hdc] at h; exact absurd h (by simp)
          | some y =>
            cases hdd : digitVal d with
            | none => rw [hda, hdb, hdc, hdd] at h; exact absurd h (by simp)
            | some z =>
              rw [hda, hdb, hdc, hdd] at h
              simp only [Option.some.injEq, Prod.mk.injEq] at h
              have hw := digitVal_le a w hda
              have hx := digitVal_le b x hdb
              have hy := digitVal_le c y hdc
              have hz := digitVal_le d z hdd
              omega

theorem daysInMonth_le (y : Int) (m : Nat) : daysInMonth y m ≤ 31 := by
  unfold daysInMonth
  split
  · split <;> omega
  · split <;> omega

theorem parseFrac_out_lt (acc seen : Nat) (hacc : acc < 10 ^ seen) (hseen : seen ≤ 6) :
    acc * 10 ^ (6 - seen) < 1000000 := by
  have h6 : seen + (6 - seen) = 6 := by omega
  have hpow : 10 ^ seen * 10 ^ (6 - seen) = 1000000 := by
    rw [← pow_add, h6]
    norm_num
  have h2 := Nat.mul_lt_mul_of_pos_right hacc
    (pow_pos (by norm_num : (0 : Nat) < 10) (6 - seen))
  omega

theorem parseFrac_lt (cs : List Char) : ∀ acc seen us r,
    acc < 10 ^ seen → seen ≤ 6 →
    parseFrac cs acc seen = some (us, r) → us < 1000000 := by
  induction cs with
  | nil =>
      intro acc seen us r hacc hseen h
      unfold parseFrac at h
      split at h
      · simp only [Option.some.injEq, Prod.mk.injEq] at h
        have := parseFrac_out_lt acc seen hacc hseen
        omega
      · exact absurd h (by simp)
  | cons c rest ih =>
      intro acc seen us r hacc hseen h
      unfold parseFrac at h
      split at h
      next v hv =>
        split at h
        next hlt =>
          have hv9 := digitVal_le c v hv
          have hps : 10 ^ (seen + 1) = 10 ^ seen * 10 := pow_succ 10 seen
          exact ih (acc * 10 + v) (seen + 1) us r (by omega) (by omega) h
        next => exact absurd h (by simp)
      next hv =>
        split at h
        · simp only [Option.some.injEq, Prod.mk.injEq] at h
          have := parseFrac_out_lt acc seen hacc hseen
          omega
        · exact absurd h (by simp)

theorem parseClock_us_lt (cs : List Char) (hh mi ss us : Nat) (off : Option Int)
    (h : parseClock cs = some (hh, mi, ss, us, off)) : us < 1000000 := by
  simp only [parseClock] at h
  cases hp1 : parse2 cs with
  | none => rw [hp1] at h; exact absurd h (by simp [optNoneBind])
  | some p1 =>
      rw [hp1] at h
      simp only [optSomeBind] at h
      obtain ⟨hh1, r1⟩ := p1
      split at h
      next hr1 =>
        rename_i r2
        cases hp2 : parse2 r2 with
        | none => rw [hp2] at h; exact absurd h (by simp [optNoneBind])
        | some p2 =>
            rw [hp2] at h
            simp only [optSomeBind] at h
            obtain ⟨mi1, r3⟩ := p2
            split at h
            next hr3 =>
              rename_i r4
              cases hp3 : parse2 r4 with
              | none => rw [hp3] at h; exact absurd h (by simp [optNoneBind])
              | some p3 =>
                  rw [hp3] at h
                  simp only [optSomeBind] at h
                  obtain ⟨ss1, r5⟩ := p3
                  split at h
                  next hr5 =>
                    rename_i r6
                    cases hp4 : parseFrac r6 0 0 with
                    | none => rw [hp4] at h; exact absurd h (by simp [optNoneBind])
                    | some p4 =>
                        rw [hp4] at h
                        simp only [optSomeBind] at h
                        obtain ⟨us1, r7⟩ := p4
                        cases hpo : parseOffset r7 with
                        | none => rw [hpo] at h; exact absurd h (by simp [optNoneBind])
                        | some o =>
                            rw [hpo] at h
                            simp only [optSomeBind, optPure, Option.some.injEq,
                              Prod.mk.injEq] at h
                            have := parseFrac_lt r6 0 0 us1 r7 (by norm_num) (by norm_num) hp4
                            omega
                  next =>
                    cases hpo : parseOffset r5 with
                    | none => rw [hpo] at h; exact absurd h (by simp [optNoneBind])
                    | some o =>
                        rw [hpo] at h
                        simp only [optSomeBind, optPure, Option.some.injEq,
                          Prod.mk.injEq] at h
                        omega
            next =>
              cases hpo : parseOffset r3 with
              | none => rw [hpo] at h; exact absurd h (by simp [optNoneBind])
              | some o =>
                  rw [hpo] at h
                  simp only [optSomeBind, optPure, Option.some.injEq, Prod.mk.injEq] at h
                  omega
      next =>
        cases hpo : parseOffset r1 with
        | none => rw [hpo] at h; exact absurd h (by simp [optNoneBind])
        | some o =>
            rw [hpo] at h
            simp only [optSomeBind, optPure, Option.some.injEq, Prod.mk.injEq] at h
            omega

theorem parseIsoChars_valid (cs : List Char) (d : CivilDT) (off : Option Int)
    (h : parseIsoChars cs = some (d, off)) : validJdt d := by
  simp only [parseIsoChars] at h
  cases hp1 : parse4 cs with
  | none => rw [hp1] at h; exact absurd h (by simp [optNoneBind])
  | some p1 =>
      rw [hp1] at h
      simp only [optSomeBind] at h
      obtain ⟨y, r1⟩ := p1
      split at h
      next hr1 =>
        rename_i r2
        cases hp2 : parse2 r2 with
        | none => rw [hp2] at h; exact absurd h (by simp [optNoneBind])
        | some p2 =>
            rw [hp2] at h
            simp only [optSomeBind] at h
            obtain ⟨m, r3⟩ := p2
            split at h
            next hr3 =>
              rename_i r4
              cases hp3 : parse2 r4 with
              | none => rw [hp3] at h; exact absurd h (by simp [optNoneBind])
              | some p3 =>
                  rw [hp3] at h
                  simp only [optSomeBind] at h
                  obtain ⟨dd, r5⟩ := p3
                  have hy4 := parse4_lt cs y r1 hp1
                  have hdm := daysInMonth_le y m
                  split at h
                  next hdate =>
                    split at h
                    next hr5 =>
                      simp only [optPure, Option.some.injEq, Prod.mk.injEq] at h
                      obtain ⟨h1, h2⟩ := h
                      subst h1
                      refine ⟨?_, ?_, ?_, ?_, ?_, ?_, ?_, ?_, ?_, ?_⟩
                      · show (1 : Int) ≤ (y : Int); omega
                      · show (y : Int) ≤ 9999; omega
                      · show 1 ≤ m; omega
                      · show m ≤ 12; omega
                      · show 1 ≤ dd; omega
                      · show dd ≤ 31; omega
                      · show 0 < 24; omega
                      · show 0 < 60; omega
                      · show 0 < 60; omega
                      · show 0 < 1000000; omega
                    next =>
                      rename_i c6 r6 hr6
                      cases hpc : parseClock r6 with
                      | none => rw [hpc] at h; exact absurd h (by simp [optNoneBind])
                      | some p4 =>
                          rw [hpc] at h
                          simp only [optSomeBind] at h
                          obtain ⟨hh, mi, ss, us, off2⟩ := p4
                          split at h
                          next htime =>
                            simp only [optPure, Option.some.injEq, Prod.mk.injEq] at h
                            obtain ⟨h1, h2⟩ := h
                            subst h1
                            have hus := parseClock_us_lt r6 hh mi ss us off2 hpc
                            have ht2 : hh < 24 ∧ mi < 60 ∧ ss < 60 := htime
                            refine ⟨?_, ?_, ?_, ?_, ?_, ?_, ?_, ?_, ?_, ?_⟩
                            · show (1 : Int) ≤ (y : Int); omega
                            · show (y : Int) ≤ 9999; omega
                            · show 1 ≤ m; omega
                            · show m ≤ 12; omega
                            · show 1 ≤ dd; omega
                            · show dd ≤ 31; omega
                            · show hh < 24; omega
                            · show mi < 60; omega
                            · show ss < 60; omega
                            · show us < 1000000; omega
                          next => exact absurd h (by simp)
                  next => exact absurd h (by simp)
            next => exact absurd h (by simp)
      next => exact absurd h (by simp)

theorem parseYmdJst_valid (cs : List Char) (d : CivilDT)
    (h : parseYmdJst cs = some d) : validJdt d := by
  simp only [parseYmdJst] at h
  cases hp1 : parse4 cs with
  | none => rw [hp1] at h; exact absurd h (by simp [optNoneBind])
  | some p1 =>
      rw [hp1] at h
      simp only [optSomeBind] at h
      obtain ⟨y, r1⟩ := p1
      split at h
      next hr1 =>
        rename_i r2
        cases hp2 : parse2 r2 with
        | none => rw [hp2] at h; exact absurd h (by simp [optNoneBind])
        | some p2 =>
            rw [hp2] at h
            simp only [optSomeBind] at h
            obtain ⟨m, r3⟩ := p2
            split at h
            next hr3 =>
              rename_i r4
              cases hp3 : parse2 r4 with
              | none => rw [hp3] at h; exact absurd h (by simp [optNoneBind])
              | some p3 =>
                  rw [hp3] at h
                  simp only [optSomeBind] at h
                  obtain ⟨dd, r5⟩ := p3
                  have hy4 := parse4_lt cs y r1 hp1
                  have hdm := daysInMonth_le y m
                  split at h
                  next hdate =>
                    simp only [optPure, Option.some.injEq] at h
                    subst h
                    refine ⟨?_, ?_, ?_, ?_, ?_, ?_, ?_, ?_, ?_, ?_⟩
                    · show (1 : Int) ≤ (y : Int); omega
                    · show (y : Int) ≤ 9999; omega
                    · show 1 ≤ m; omega
                    · show m ≤ 12; omega
                    · show 1 ≤ dd; omega
                    · show dd ≤ 31; omega
                    · show 0 < 24; omega
                    · show 0 < 60; omega
                    · show 0 < 60; omega
                    · show 0 < 1000000; omega
                  next => exact absurd h (by simp)
            next => exact absurd h (by simp)
      next => exact absurd h (by simp)

theorem astimezoneJst_valid (d : CivilDT) (curOff : Int) (d2 : CivilDT)
    (hm : d.micro < 1000000)
    (h : astimezoneJst d curOff = some d2) : validJdt d2 := by
  simp only [astimezoneJst] at h
  split at h
  next hy =>
    injection h with h2
    subst h2
    have hb := jdtOfEpochOff_bounds (secondsOfCivil d - curOff) jstOff d.micro
    refine ⟨hy.1, hy.2, hb.1, hb.2.1, hb.2.2.1, hb.2.2.2.1, hb.2.2.2.2.1,
      hb.2.2.2.2.2.1, hb.2.2.2.2.2.2.1, ?_⟩
    show (jdtOfEpochOff (secondsOfCivil d - curOff) jstOff d.micro).micro < 1000000
    rw [hb.2.2.2.2.2.2.2]
    exact hm
  next => exact absurd h (by simp)

theorem isoKeyTry_valid (v : String) (localOff : Int) (d : CivilDT)
    (h : isoKeyTry v localOff = Except.ok (some d)) : validJdt d := by
  unfold isoKeyTry at h
  split at h
  next d0 off hpi =>
    split at h
    next d2 haz =>
      injection h with h2
      injection h2 with h3
      subst h3
      exact astimezoneJst_valid d0 (off.getD localOff) d2
        (parseIsoChars_valid (replaceZ v).data d0 off hpi).2.2.2.2.2.2.2.2.2 haz
    next => exact absurd h (by simp)
  next hpi =>
    split at h
    next d1 hpy =>
      injection h with h2
      injection h2 with h3
      subst h3
      exact parseYmdJst_valid (v.data.take 10) d1 hpy
    next => exact absurd h (by simp)

theorem epochScan_valid (fs : List (String × Json)) (ks : List String) (d : CivilDT)
    (h : epochScan fs ks = Except.ok (some d)) : validJdt d := by
  induction ks with
  | nil => exact absurd h (by simp [epochScan])
  | cons k ks ih =>
      unfold epochScan at h
      split at h
      next q hq =>
        split at h
        next hgt =>
          split at h
          next e hf => exact absurd h (by simp)
          next d1 hf =>
            injection h with h2
            injection h2 with h3
            subst h3
            exact fromtimestampJst_valid q d1 hf
          next hf => exact ih h
        next => exact ih h
      next => exact ih h

theorem isoScan_valid (fs : List (String × Json)) (localOff : Int)
    (ks : List String) (d : CivilDT)
    (h : isoScan fs localOff ks = Except.ok (some d)) : validJdt d := by
  induction ks with
  | nil => exact absurd h (by simp [isoScan])
  | cons k ks ih =>
      unfold isoScan at h
      split at h
      next v hq =>
        split at h
        next hlen =>
          split at h
          next e hf => exact absurd h (by simp)
          next d1 hf =>
            injection h with h2
            injection h2 with h3
            subst h3
            exact isoKeyTry_valid v localOff d1 hf
          next hf => exact ih h
        next => exact ih h
      next => exact ih h

theorem extractRecordedAt_valid (p : Json) (fb : CivilDT) (localOff : Int) (s : String)
    (hfb : validJdt fb)
    (h : extractRecordedAt p fb localOff = Except.ok s) :
    ∃ d, validJdt d ∧ s = jdtIso d := by
  unfold extractRecordedAt at h
  split at h
  next fs =>
    split at h
    next e heq => exact absurd h (by simp)
    next d1 heq =>
      injection h with h2
      exact ⟨d1, epochScan_valid fs epochKeys d1 heq, h2.symm⟩
    next heq =>
      split at h
      next e heq2 => exact absurd h (by simp)
      next d1 heq2 =>
        injection h with h2
        exact ⟨d1, isoScan_valid fs localOff isoKeys d1 heq2, h2.symm⟩
      next heq2 =>
        injection h with h2
        exact ⟨fb, hfb, h2.symm⟩
  next =>
    injection h with h2
    exact ⟨fb, hfb, h2.symm⟩

theorem epochScan_eq_scanVals_gen (fs : List (String × Json)) : ∀ ks,
    epochScan fs ks = scanVals (ks.filterMap (fun k =>
      match pyGet fs k with
      | some (.num q) => if 1000000000 < q then some q else none
      | _ => none)) := by
  intro ks
  induction ks with
  | nil => rfl
  | cons k ks ih =>
      cases hq : pyGet fs k with
      | none =>
          simp only [epochScan, List.filterMap_cons, hq]
          exact ih
      | some j =>
          cases j with
          | num q =>
              by_cases hgt : 1000000000 < q
              · simp only [epochScan, List.filterMap_cons, hq, if_pos hgt, scanVals]
                cases hf : fromtimestampJst q with
                | error e => rfl
                | ok o =>
                    cases o with
                    | some d => rfl
                    | none => exact ih
              · simp only [epochScan, List.filterMap_cons, hq, if_neg hgt]
                exact ih
          | null => simp only [epochScan, List.filterMap_cons, hq]; exact ih
          | bool b => simp only [epochScan, List.filterMap_cons, hq]; exact ih
          | str s => simp only [epochScan, List.filterMap_cons, hq]; exact ih
          | arr xs => simp only [epochScan, List.filterMap_cons, hq]; exact ih
          | obj fs2 => simp only [epochScan, List.filterMap_cons, hq]; exact ih

theorem epochScan_eq_scanVals (fs : List (String × Json)) :
    epochScan fs epochKeys = scanVals (numCandidates fs) := by
  rw [epochScan_eq_scanVals_gen fs epochKeys]
  rfl

theorem isoScan_eq_scanStrs_gen (fs : List (String × Json)) (localOff : Int) : ∀ ks,
    isoScan fs localOff ks = scanStrs localOff (ks.filterMap (fun k =>
      match pyGet fs k with
      | some (.str v) => if 10 ≤ v.data.length then some v else none
      | _ => none)) := by
  intro ks
  induction ks with
  | nil => rfl
  | cons k ks ih =>
      cases hq : pyGet fs k with
      | none =>
          simp only [isoScan, List.filterMap_cons, hq]
          exact ih
      | some j =>
          cases j with
          | str v =>
              by_cases hlen : 10 ≤ v.data.length
              · simp only [isoScan, List.filterMap_cons, hq, if_pos hlen, scanStrs]
                cases hf : isoKeyTry v localOff with
                | error e => rfl
                | ok o =>
                    cases o with
                    | some d => rfl
                    | none => exact ih
              · simp only [isoScan, List.filterMap_cons, hq, if_neg hlen]
                exact ih
          | null => simp only [isoScan, List.filterMap_cons, hq]; exact ih
          | bool b => simp only [isoScan, List.filterMap_cons, hq]; exact ih
          | num q => simp only [isoScan, List.filterMap_cons, hq]; exact ih
          | arr xs => simp only [isoScan, List.filterMap_cons, hq]; exact ih
          | obj fs2 => simp only [isoScan, List.filterMap_cons, hq]; exact ih

theorem isoScan_eq_scanStrs (fs : List (String × Json)) (localOff : Int) :
    isoScan fs localOff isoKeys = scanStrs localOff (strCandidates fs) := by
  rw [isoScan_eq_scanStrs_gen fs localOff isoKeys]
  rfl

theorem extract_nonobj (p : Json) (fb : CivilDT) (localOff : Int)
    (hnp : ∀ fs, p ≠ Json.obj fs) :
    extractRecordedAt p fb localOff = Except.ok (jdtIso fb) := by
  cases p with
  | obj fs => exact absurd rfl (hnp fs)
  | null => rfl
  | bool b => rfl
  | num q => rfl
  | str s => rfl
  | arr xs => rfl

theorem extract_nocand (fs : List (String × Json)) (fb : CivilDT) (localOff : Int)
    (hn : numCandidates fs = []) (hs : strCandidates fs = []) :
    extractRecordedAt (Json.obj fs) fb localOff = Except.ok (jdtIso fb) := by
  have h1 : epochScan fs epochKeys = Except.ok none := by
    rw [epochScan_eq_scanVals fs, hn]; rfl
  have h2 : isoScan fs localOff isoKeys = Except.ok none := by
    rw [isoScan_eq_scanStrs fs localOff, hs]; rfl
  simp only [extractRecordedAt]
  rw [h1, h2]

/-- C4 (amended): the timestamp normalizer scans the numeric-epoch candidate
keys for the first value that is numeric, greater than 1e9 and convertible,
a caught conversion failure moving the scan to the next key, then the
string-date candidates, then the fallback; every successful result renders
a valid JST civil datetime, and non-mapping payloads and candidate-free
mappings yield the fallback, but a convertible value whose JST year leaves
the datetime range raises an uncaught OverflowError, so the extraction is
not total. -/
theorem timestamp_normalizer_extraction :
    (∀ p fb localOff s, validJdt fb →
        extractRecordedAt p fb localOff = Except.ok s →
        ∃ d, validJdt d ∧ s = jdtIso d) ∧
    (∀ fs, epochScan fs epochKeys = scanVals (numCandidates fs)) ∧
    (∀ fs localOff, isoScan fs localOff isoKeys = scanStrs localOff (strCandidates fs)) ∧
    (∀ p fb localOff, (∀ fs, p ≠ Json.obj fs) →
        extractRecordedAt p fb localOff = Except.ok (jdtIso fb)) ∧
    (∀ fs fb localOff, numCandidates fs = [] → strCandidates fs = [] →
        extractRecordedAt (Json.obj fs) fb localOff = Except.ok (jdtIso fb)) :=
  ⟨fun p fb localOff s hfb h => extractRecordedAt_valid p fb localOff s hfb h,
   fun fs => epochScan_eq_scanVals fs,
   fun fs localOff => isoScan_eq_scanStrs fs localOff,
   fun p fb localOff hnp => extract_nonobj p fb localOff hnp,
   fun fs fb localOff hn hs => extract_nocand fs fb localOff hn hs⟩

/-- C4 witness: concrete instances of every clause of the amended
normalizer theorem. -/
theorem timestamp_normalizer_extraction_witness :
    validJdt ⟨2026, 2, 11, 7, 30, 0, 0⟩ ∧
    extractRecordedAt (Json.obj [("t", Json.num 1700000000)]) ⟨2026, 2, 11, 7, 30, 0, 0⟩ 0 =
      Except.ok "2023-11-15T07:13:20+09:00" ∧
    (∃ d, validJdt d ∧ "2023-11-15T07:13:20+09:00" = jdtIso d) ∧
    numCandidates [("x", Json.null)] = [] ∧
    strCandidates [("x", Json.null)] = [] ∧
    extractRecordedAt (Json.obj [("x", Json.null)]) ⟨2026, 2, 11, 7, 30, 0, 0⟩ 0 =
      Except.ok (jdtIso ⟨2026, 2, 11, 7, 30, 0, 0⟩) ∧
    extractRecordedAt (Json.str "a") ⟨2026, 2, 11, 7, 30, 0, 0⟩ 0 =
      Except.ok (jdtIso ⟨2026, 2, 11, 7, 30, 0, 0⟩) :=
  ⟨by unfold validJdt; decide,
   by with_unfolding_all rfl,
   timestamp_normalizer_extraction.1 (Json.obj [("t", Json.num 1700000000)])
     ⟨2026, 2, 11, 7, 30, 0, 0⟩ 0 "2023-11-15T07:13:20+09:00" (by unfold validJdt; decide)
     (by with_unfolding_all rfl),
   by rfl, by rfl,
   timestamp_normalizer_extraction.2.2.2.2 [("x", Json.null)] ⟨2026, 2, 11, 7, 30, 0, 0⟩ 0
     (by rfl) (by rfl),
   timestamp_normalizer_extraction.2.2.2.1 (Json.str "a") ⟨2026, 2, 11, 7, 30, 0, 0⟩ 0
     (fun fs h => Json.noConfusion h)⟩

/-- C4 counterexample: with payload fields dt = 300000000000 and
t = 1600000000 the code skips dt after a caught conversion failure and uses
t, while the claim text converts the first large numeric key dt; and the
lone payload field dt = 253402268400 (UTC year 9999, JST year 10000) makes
the extraction raise an uncaught OverflowError instead of never failing. -/
theorem timestamp_normalizer_counterexample :
    extractRecordedAt
        (Json.obj [("dt", Json.num 300000000000), ("t", Json.num 1600000000)])
        ⟨2026, 2, 11, 7, 30, 0, 0⟩ 0 = Except.ok "2020-09-13T21:26:40+09:00" ∧
    claimedExtract
        (Json.obj [("dt", Json.num 300000000000), ("t", Json.num 1600000000)])
        ⟨2026, 2, 11, 7, 30, 0, 0⟩ 0 = "1476-08-15T14:20:00+09:00" ∧
    "1476-08-15T14:20:00+09:00" ≠ "2020-09-13T21:26:40+09:00" ∧
    extractRecordedAt (Json.obj [("dt", Json.num 253402268400)])
        ⟨2026, 2, 11, 7, 30, 0, 0⟩ 0 = Except.error PyErr.overflowError :=
  ⟨by with_unfolding_all rfl, by with_unfolding_all rfl, by decide,
   by with_unfolding_all rfl⟩

theorem charsLe_total (as bs : List Char) : charsLe as bs = true ∨ charsLe bs as = true := by
  induction as generalizing bs with
  | nil => exact Or.inl rfl
  | cons a as ih =>
      cases bs with
      | nil => exact Or.inr rfl
      | cons b bs =>
          unfold charsLe
          by_cases h1 : a.toNat < b.toNat
          · left; rw [if_pos h1]
          · by_cases h2 : b.toNat < a.toNat
            · right; rw [if_pos h2]
            · rw [if_neg h1, if_neg h2, if_neg h2, if_neg h1]
              exact ih bs

theorem charsLe_trans (as : List Char) : ∀ bs cs, charsLe as bs = true →
    charsLe bs cs = true → charsLe as cs = true := by
  induction as with
  | nil => intro bs cs h1 h2; rfl
  | cons a as ih =>
      intro bs cs h1 h2
      cases bs with
      | nil => exact absurd h1 (by simp [charsLe])
      | cons b bs =>
          cases cs with
          | nil => exact absurd h2 (by simp [charsLe])
          | cons c cs =>
              unfold charsLe at h1 h2 ⊢
              by_cases hab : a.toNat < b.toNat
              · rw [if_pos hab] at h1
                by_cases hbc : b.toNat < c.toNat
                · rw [if_pos (by omega : a.toNat < c.toNat)]
                · rw [if_neg hbc] at h2
                  by_cases hcb : c.toNat < b.toNat
                  · rw [if_pos hcb] at h2; exact absurd h2 (by simp)
                  · rw [if_pos (by omega : a.toNat < c.toNat)]
              · rw [if_neg hab] at h1
                by_cases hba : b.toNat < a.toNat
                · rw [if_pos hba] at h1; exact absurd h1 (by simp)
                · rw [if_neg hba] at h1
                  by_cases hbc : b.toNat < c.toNat
                  · rw [if_pos (by omega : a.toNat < c.toNat)]
                  · rw [if_neg hbc] at h2
                    by_cases hcb : c.toNat < b.toNat
                    · rw [if_pos hcb] at h2; exact absurd h2 (by simp)
                    · rw [if_neg hcb] at h2
                      rw [if_neg (by omega : ¬a.toNat < c.toNat),
                        if_neg (by omega : ¬c.toNat < a.toNat)]
                      exact ih bs cs h1 h2

theorem strLe_total (a b : String) : strLe a b = true ∨ strLe b a = true :=
  charsLe_total a.data b.data

theorem strLe_trans (a b c : String) (h1 : strLe a b = true) (h2 : strLe b c = true) :
    strLe a c = true :=
  charsLe_trans a.data b.data c.data h1 h2

theorem insertCorr_mem (r : CorrRow) (l : List CorrRow) (x : CorrRow) :
    x ∈ insertCorr r l ↔ x = r ∨ x ∈ l := by
  induction l with
  | nil => simp [insertCorr]
  | cons y ys ih =>
      unfold insertCorr
      split
      · simp only [List.mem_cons]
        try tauto
      · simp only [List.mem_cons, ih]
        tauto

theorem sortCorr_mem (l : List CorrRow) (x : CorrRow) : x ∈ sortCorr l ↔ x ∈ l := by
  induction l with
  | nil => simp [sortCorr]
  | cons y ys ih =>
      simp only [sortCorr, insertCorr_mem, ih, List.mem_cons]

theorem insertCorr_pairwise (r : CorrRow) (l : List CorrRow)
    (hl : List.Pairwise (fun a b : CorrRow => strLe a.date b.date = true) l) :
    List.Pairwise (fun a b : CorrRow => strLe a.date b.date = true) (insertCorr r l) := by
  induction l with
  | nil => simp [insertCorr]
  | cons y ys ih =>
      obtain ⟨hy, hys⟩ := List.pairwise_cons.mp hl
      unfold insertCorr
      split
      next hle =>
        refine List.pairwise_cons.mpr ⟨?_, hl⟩
        intro z hz
        rcases List.mem_cons.mp hz with rfl | hz2
        · exact hle
        · exact strLe_trans _ _ _ hle (hy z hz2)
      next hle =>
        refine List.pairwise_cons.mpr ⟨?_, ih hys⟩
        intro z hz
        rcases (insertCorr_mem r ys z).mp hz with rfl | hz2
        · rcases strLe_total y.date z.date with h | h
          · exact h
          · exact absurd h hle
        · exact hy z hz2

theorem sortCorr_pairwise (l : List CorrRow) :
    List.Pairwise (fun a b : CorrRow => strLe a.date b.date = true) (sortCorr l) := by
  induction l with
  | nil => exact List.Pairwise.nil
  | cons y ys ih => exact insertCorr_pairwise y (sortCorr ys) ih

theorem dedupKeepLast_cons (r : String × Int) (rs : List (String × Int)) :
    dedupKeepLast (r :: rs) =
      if (dedupKeepLast rs).any (fun x => x.1 = r.1) then dedupKeepLast rs
      else r :: dedupKeepLast rs := rfl

theorem dedupKeepLast_subset (rows : List (String × Int)) (x : String × Int)
    (h : x ∈ dedupKeepLast rows) : x ∈ rows := by
  induction rows with
  | nil => exact absurd h (by simp [dedupKeepLast])
  | cons r rs ih =>
      rw [dedupKeepLast_cons] at h
      split at h
      · exact List.mem_cons_of_mem r (ih h)
      · rcases List.mem_cons.mp h with rfl | h2
        · exact List.mem_cons_self x rs
        · exact List.mem_cons_of_mem r (ih h2)

theorem dedupKeepLast_hasDate (rows : List (String × Int)) (d : String) :
    (∃ y ∈ dedupKeepLast rows, y.1 = d) ↔ ∃ y ∈ rows, y.1 = d := by
  induction rows with
  | nil => simp [dedupKeepLast]
  | cons r rs ih =>
      rw [dedupKeepLast_cons]
      split
      next hmem =>
        simp only [List.mem_cons]
        constructor
        · intro ⟨y, hy, hyd⟩
          exact ⟨y, Or.inr (dedupKeepLast_subset rs y hy), hyd⟩
        · intro ⟨y, hy, hyd⟩
          rcases hy with rfl | hy2
          · obtain ⟨z, hz, hzd⟩ := List.any_eq_true.mp hmem
            exact ⟨z, hz, (of_decide_eq_true hzd).trans hyd⟩
          · exact ih.mpr ⟨y, hy2, hyd⟩
      next hmem =>
        simp only [List.mem_cons]
        constructor
        · intro ⟨y, hy, hyd⟩
          rcases hy with rfl | hy2
          · exact ⟨y, Or.inl rfl, hyd⟩
          · obtain ⟨z, hz, hzd⟩ := ih.mp ⟨y, hy2, hyd⟩
            exact ⟨z, Or.inr hz, hzd⟩
        · intro ⟨y, hy, hyd⟩
          rcases hy with rfl | hy2
          · exact ⟨y, Or.inl rfl, hyd⟩
          · obtain ⟨z, hz, hzd⟩ := ih.mpr ⟨y, hy2, hyd⟩
            exact ⟨z, Or.inr hz, hzd⟩

theorem getLast_cons_ne {α : Type} (a : α) (l : List α) (h : l ≠ []) :
    (a :: l).getLast? = l.getLast? := by
  cases l with
  | nil => exact absurd rfl h
  | cons b l2 => exact List.getLast?_cons_cons

theorem dedupKeepLast_getLast (rows : List (String × Int)) (x : String × Int) :
    x ∈ dedupKeepLast rows ↔
      (rows.filter (fun r => r.1 = x.1)).getLast? = some x := by
  induction rows with
  | nil => simp [dedupKeepLast]
  | cons r rs ih =>
      rw [dedupKeepLast_cons, List.filter_cons]
      by_cases hd : r.1 = x.1
      · rw [if_pos (show decide (r.1 = x.1) = true by simp [hd])]
        split
        next hmem =>
          have hex : ∃ y ∈ rs, y.1 = r.1 :=
            (dedupKeepLast_hasDate rs r.1).mp (by
              obtain ⟨z, hz, hzd⟩ := List.any_eq_true.mp hmem
              exact ⟨z, hz, of_decide_eq_true hzd⟩)
          have hne : rs.filter (fun t => t.1 = x.1) ≠ [] := by
            obtain ⟨y, hy, hyd⟩ := hex
            intro hnil
            have hmf : y ∈ rs.filter (fun t => t.1 = x.1) :=
              List.mem_filter.mpr ⟨hy, by simp [hyd, hd]⟩
            rw [hnil] at hmf
            exact absurd hmf (List.not_mem_nil y)
          rw [getLast_cons_ne r _ hne]
          exact ih
        next hmem =>
          have hnone : ∀ y ∈ rs, y.1 ≠ r.1 := by
            intro y hy hyd
            obtain ⟨z, hz, hzd⟩ := (dedupKeepLast_hasDate rs r.1).mpr ⟨y, hy, hyd⟩
            exact hmem (List.any_eq_true.mpr ⟨z, hz, by simp [hzd]⟩)
          have hfe : rs.filter (fun t => t.1 = x.1) = [] := by
            rw [List.filter_eq_nil_iff]
            intro y hy
            simp only [decide_eq_true_eq]
            rw [← hd]
            exact hnone y hy
          rw [hfe]
          constructor
          · intro hx
            rcases List.mem_cons.mp hx with rfl | hx2
            · simp
            · exact absurd hd.symm (hnone x (dedupKeepLast_subset rs x hx2))
          · intro hx
            have hx2 : r = x := by simpa using hx
            subst hx2
            exact List.mem_cons_self r _
      · rw [if_neg (show ¬decide (r.1 = x.1) = true by simp [hd])]
        split
        next hmem => exact ih
        next hmem =>
          constructor
          · intro hx
            rcases List.mem_cons.mp hx with rfl | hx2
            · exact absurd rfl hd
            · exact ih.mp hx2
          · intro hx
            exact List.mem_cons_of_mem r (ih.mpr hx)

theorem insertStr_mem (s : String) (l : List String) (x : String) :
    x ∈ insertStr s l ↔ x = s ∨ x ∈ l := by
  induction l with
  | nil => simp [insertStr]
  | cons y ys ih =>
      unfold insertStr
      split
      · simp only [List.mem_cons]
        try tauto
      · simp only [List.mem_cons, ih]
        tauto

theorem sortStrings_mem (l : List String) (x : String) : x ∈ sortStrings l ↔ x ∈ l := by
  induction l with
  | nil => simp [sortStrings]
  | cons y ys ih =>
      simp only [sortStrings, insertStr_mem, ih, List.mem_cons]

theorem uniqueDates_gen (rows : List EnvExtract) : ∀ acc x,
    (x ∈ rows.foldl (fun acc r =>
      if acc.any (fun d => d = r.date) then acc else acc ++ [r.date]) acc ↔
    x ∈ acc ∨ ∃ e ∈ rows, e.date = x) := by
  induction rows with
  | nil => intro acc x; simp
  | cons r rs ih =>
      intro acc x
      rw [List.foldl_cons]
      by_cases hmem : acc.any (fun d => d = r.date) = true
      · rw [if_pos hmem, ih]
        constructor
        · rintro (h | ⟨e, he, hed⟩)
          · exact Or.inl h
          · exact Or.inr ⟨e, List.mem_cons_of_mem r he, hed⟩
        · rintro (h | ⟨e, he, hed⟩)
          · exact Or.inl h
          · rcases List.mem_cons.mp he with rfl | he2
            · obtain ⟨z, hz, hzd⟩ := List.any_eq_true.mp hmem
              have hzx : z = x := (of_decide_eq_true hzd).trans hed
              exact Or.inl (hzx ▸ hz)
            · exact Or.inr ⟨e, he2, hed⟩
      · rw [if_neg hmem, ih]
        constructor
        · rintro (h | ⟨e, he, hed⟩)
          · rcases List.mem_append.mp h with h2 | h2
            · exact Or.inl h2
            · exact Or.inr ⟨r, List.mem_cons_self r rs,
                (List.mem_singleton.mp h2).symm⟩
          · exact Or.inr ⟨e, List.mem_cons_of_mem r he, hed⟩
        · rintro (h | ⟨e, he, hed⟩)
          · exact Or.inl (List.mem_append.mpr (Or.inl h))
          · rcases List.mem_cons.mp he with rfl | he2
            · exact Or.inl (List.mem_append.mpr (Or.inr
                (List.mem_singleton.mpr hed.symm)))
            · exact Or.inr ⟨e, he2, hed⟩

theorem uniqueDates_mem (rows : List EnvExtract) (x : String) :
    x ∈ uniqueDates rows ↔ ∃ e ∈ rows, e.date = x := by
  rw [uniqueDates, uniqueDates_gen rows [] x]
  simp

theorem exceptBind_ok_ex {α β : Type} (x : Except PyErr α) (f : α → Except PyErr β) (b : β)
    (h : (x >>= f) = Except.ok b) : ∃ a, x = Except.ok a ∧ f a = Except.ok b := by
  cases x with
  | error e => exact absurd h (by simp [exceptBind_err])
  | ok a => exact ⟨a, rfl, h⟩

theorem mapAgg_dates (rows : List EnvExtract) : ∀ ds agg,
    mapAgg rows ds = Except.ok agg → agg.map (fun a => a.date) = ds := by
  intro ds
  induction ds with
  | nil =>
      intro agg h
      simp only [mapAgg, exceptPure] at h
      injection h with h2
      rw [← h2]
      rfl
  | cons d ds ih =>
      intro agg h
      simp only [mapAgg] at h
      obtain ⟨c, hc, h⟩ := exceptBind_ok_ex _ _ _ h
      obtain ⟨t, ht, h⟩ := exceptBind_ok_ex _ _ _ h
      obtain ⟨hu, hhu, h⟩ := exceptBind_ok_ex _ _ _ h
      obtain ⟨rest, hrest, h⟩ := exceptBind_ok_ex _ _ _ h
      rw [exceptPure] at h
      injection h with h2
      rw [← h2, List.map_cons, ih rest hrest]

theorem find_none_of_noDate (agg : List EnvAgg) (q : String)
    (h : ∀ a ∈ agg, a.date ≠ q) :
    agg.find? (fun a => a.date = q) = none := by
  rw [List.find?_eq_none]
  intro a ha
  simp [h a ha]

theorem getCorrelationData_shape (sleepIn : List OuraSleepRow) (envIn : List EnvRow)
    (out : List CorrRow) (h : getCorrelationData sleepIn envIn = Except.ok out) :
    ∃ sleepRows, extractSleepRows sleepIn = Except.ok sleepRows ∧
      ((sleepRows = [] ∧ out = []) ∨
       (sleepRows ≠ [] ∧
        ∃ f : String × Int → CorrRow,
          (∀ sr, (f sr).date = sr.1 ∧ (f sr).sleep_score = sr.2) ∧
          out = sortCorr ((dedupKeepLast sleepRows).map f))) := by
  simp only [getCorrelationData] at h
  obtain ⟨sleepRows, hs, h⟩ := exceptBind_ok_ex _ _ _ h
  refine ⟨sleepRows, hs, ?_⟩
  by_cases hnil : sleepRows = []
  · rw [if_pos hnil, exceptPure] at h
    injection h with h2
    exact Or.inl ⟨hnil, h2.symm⟩
  · rw [if_neg hnil] at h
    obtain ⟨envRows, he, h⟩ := exceptBind_ok_ex _ _ _ h
    by_cases hev : envRows.isEmpty
    · rw [if_pos hev, exceptPure] at h
      injection h with h2
      exact Or.inr ⟨hnil, fun sr => ⟨sr.1, sr.2, none, none, none⟩,
        fun sr => ⟨rfl, rfl⟩, h2.symm⟩
    · rw [if_neg hev] at h
      obtain ⟨agg, hg, h⟩ := exceptBind_ok_ex _ _ _ h
      rw [exceptPure] at h
      injection h with h2
      refine Or.inr ⟨hnil, fun sr =>
        match agg.find? (fun a => a.date = sr.1) with
        | some a => ⟨sr.1, sr.2, a.co2_avg, a.temp_avg, a.humidity_avg⟩
        | none => ⟨sr.1, sr.2, none, none, none⟩, ?_, h2.symm⟩
      intro sr
      cases hf : agg.find? (fun a => a.date = sr.1) with
      | some a => simp [hf]
      | none => simp [hf]

/-- C6: the correlation assembler left-joins per-date environmental
averages onto the deduplicated sleep-score rows: an empty score extraction
yields an empty result rather than an error, the output is sorted
ascending by date, the output rows are exactly the deduplicated score rows
with dates and scores preserved, per-date deduplication keeps the last row
in fetch order, and a row whose date matches no environmental record
carries explicit none averages, never zero. -/
theorem correlation_left_join :
    (∀ sleepIn envIn, extractSleepRows sleepIn = Except.ok [] →
        getCorrelationData sleepIn envIn = Except.ok []) ∧
    (∀ sleepIn envIn out, getCorrelationData sleepIn envIn = Except.ok out →
        List.Pairwise (fun a b : CorrRow => strLe a.date b.date = true) out) ∧
    (∀ sleepIn envIn out sleepRows, getCorrelationData sleepIn envIn = Except.ok out →
        extractSleepRows sleepIn = Except.ok sleepRows →
        ((∀ sr ∈ dedupKeepLast sleepRows, ∃ r ∈ out, r.date = sr.1 ∧ r.sleep_score = sr.2) ∧
         (∀ r ∈ out, ∃ sr ∈ dedupKeepLast sleepRows, r.date = sr.1 ∧ r.sleep_score = sr.2))) ∧
    (∀ rows x, x ∈ dedupKeepLast rows ↔
        (rows.filter (fun r => r.1 = x.1)).getLast? = some x) ∧
    (∀ sleepIn envIn out envRows r, getCorrelationData sleepIn envIn = Except.ok out →
        extractEnvRows envIn = Except.ok envRows → r ∈ out →
        (∀ e ∈ envRows, e.date ≠ r.date) →
        r.co2_avg = none ∧ r.temp_avg = none ∧ r.humidity_avg = none) := by
  refine ⟨?_, ?_, ?_, ?_, ?_⟩
  · intro sleepIn envIn hs
    simp only [getCorrelationData, hs, exceptBind_ok]
    rw [if_pos trivial, exceptPure]
  · intro sleepIn envIn out h
    obtain ⟨sleepRows, hs, hshape⟩ := getCorrelationData_shape sleepIn envIn out h
    rcases hshape with ⟨-, rfl⟩ | ⟨-, f, hf, rfl⟩
    · exact List.Pairwise.nil
    · exact sortCorr_pairwise _
  · intro sleepIn envIn out sleepRows h hs
    obtain ⟨sleepRows2, hs2, hshape⟩ := getCorrelationData_shape sleepIn envIn out h
    have h3 := hs.symm.trans hs2
    injection h3 with h4
    subst h4
    rcases hshape with ⟨hnil, rfl⟩ | ⟨-, f, hf, rfl⟩
    · subst hnil
      constructor
      · intro sr hsr
        exact absurd hsr (by simp [dedupKeepLast])
      · intro r hr
        exact absurd hr (List.not_mem_nil r)
    · constructor
      · intro sr hsr
        refine ⟨f sr, ?_, (hf sr).1, (hf sr).2⟩
        rw [sortCorr_mem]
        exact List.mem_map_of_mem f hsr
      · intro r hr
        rw [sortCorr_mem] at hr
        obtain ⟨sr, hsr, hfr⟩ := List.mem_map.mp hr
        exact ⟨sr, hsr, hfr ▸ (hf sr).1, hfr ▸ (hf sr).2⟩
  · exact dedupKeepLast_getLast
  · intro sleepIn envIn out envRows r h he hr hnd
    simp only [getCorrelationData] at h
    obtain ⟨sleepRows, hs, h⟩ := exceptBind_ok_ex _ _ _ h
    by_cases hnil : sleepRows = []
    · rw [if_pos hnil, exceptPure] at h
      injection h with h2
      rw [← h2] at hr
      exact absurd hr (List.not_mem_nil r)
    · rw [if_neg hnil] at h
      obtain ⟨envRows2, he2, h⟩ := exceptBind_ok_ex _ _ _ h
      have h3 := he.symm.trans he2
      injection h3 with h4
      subst h4
      by_cases hev : envRows.isEmpty
      · rw [if_pos hev, exceptPure] at h
        injection h with h2
        rw [← h2, sortCorr_mem] at hr
        obtain ⟨sr, hsr, hfr⟩ := List.mem_map.mp hr
        rw [← hfr]
        exact ⟨rfl, rfl, rfl⟩
      · rw [if_neg hev] at h
        obtain ⟨agg, hg, h⟩ := exceptBind_ok_ex _ _ _ h
        rw [exceptPure] at h
        injection h with h2
        rw [← h2, sortCorr_mem] at hr
        obtain ⟨sr, hsr, hfr⟩ := List.mem_map.mp hr
        have hg2 : mapAgg envRows (sortStrings (uniqueDates envRows)) = Except.ok agg := hg
        have hagg : ∀ a ∈ agg, a.date ≠ r.date := by
          intro a ha had
          have hmap : a.date ∈ agg.map (fun a => a.date) :=
            List.mem_map_of_mem _ ha
          rw [mapAgg_dates envRows _ agg hg2, sortStrings_mem, uniqueDates_mem] at hmap
          obtain ⟨e, hemem, hed⟩ := hmap
          exact hnd e hemem (hed.trans had)
        have hrd : r.date = sr.1 := by
          rw [← hfr]
          cases agg.find? (fun a => a.date = sr.1) <;> rfl
        have hfind : agg.find? (fun a => a.date = sr.1) = none :=
          find_none_of_noDate agg sr.1
            (fun a ha had => hagg a ha (had.trans hrd.symm))
        rw [← hfr]
        simp [hfind]

/-- C6 witness: sleep scores on 2026-02-10 and 2026-02-11 and one
environmental record whose JST date is 2026-02-10 give two rows, ascending,
the first with numeric averages and the second with explicit none
averages. -/
theorem correlation_left_join_witness :
    getCorrelationData
      [⟨Json.obj [("score", Json.num 80), ("day", Json.str "2026-02-10")],
         "2026-02-10T22:00:00+09:00"⟩,
       ⟨Json.obj [("score", Json.num 75), ("day", Json.str "2026-02-11")],
         "2026-02-11T22:00:00+09:00"⟩]
      [⟨Json.obj [("CO2", Json.num 600), ("temperature", Json.num 21),
          ("humidity", Json.num 50)], "2026-02-09T22:00:00+00:00"⟩] =
      Except.ok
        [⟨"2026-02-10", 80, some 600, some 21, some 50⟩,
         ⟨"2026-02-11", 75, none, none, none⟩] ∧
    ((⟨"2026-02-11", 75, none, none, none⟩ : CorrRow).co2_avg = none ∧
     (⟨"2026-02-11", 75, none, none, none⟩ : CorrRow).temp_avg = none ∧
     (⟨"2026-02-11", 75, none, none, none⟩ : CorrRow).humidity_avg = none) ∧
    getCorrelationData []
      [⟨Json.obj [("CO2", Json.num 600), ("temperature", Json.num 21),
          ("humidity", Json.num 50)], "2026-02-09T22:00:00+00:00"⟩] =
      Except.ok [] :=
  ⟨by with_unfolding_all rfl,
   correlation_left_join.2.2.2.2
     [⟨Json.obj [("score", Json.num 80), ("day", Json.str "2026-02-10")],
        "2026-02-10T22:00:00+09:00"⟩,
      ⟨Json.obj [("score", Json.num 75), ("day", Json.str "2026-02-11")],
        "2026-02-11T22:00:00+09:00"⟩]
     [⟨Json.obj [("CO2", Json.num 600), ("temperature", Json.num 21),
         ("humidity", Json.num 50)], "2026-02-09T22:00:00+00:00"⟩]
     [⟨"2026-02-10", 80, some 600, some 21, some 50⟩,
      ⟨"2026-02-11", 75, none, none, none⟩]
     [⟨"2026-02-10", some (Json.num 600), some (Json.num 21), some (Json.num 50)⟩]
     ⟨"2026-02-11", 75, none, none, none⟩
     (by with_unfolding_all rfl)
     (by with_unfolding_all rfl)
     (by simp)
     (by
       intro e he
       rw [List.mem_singleton] at he
       subst he
       decide),
   correlation_left_join.1 []
     [⟨Json.obj [("CO2", Json.num 600), ("temperature", Json.num 21),
         ("humidity", Json.num 50)], "2026-02-09T22:00:00+00:00"⟩]
     (by rfl)⟩

end YuruHealth
